import Mathlib

/-!
Verification of the JSON repair pipeline in `json_parser_optimized.py` and
`json_parser_performance_optimized.py`.

Python strings are modelled as `List Char`.  The standard-library calls the
code delegates to (`json.loads`, `json.dumps`, `str.strip`, `re.sub`) are
modelled from their documented behaviour:

* `loads` implements the JSON grammar accepted by `json.loads` (strict mode):
  objects, arrays, strings with the usual escapes including `\uXXXX` and
  surrogate pairs, numbers `-?(0|[1-9]\d*)(\.\d+)?([eE][+-]?\d+)?`, and the
  literals `true`/`false`/`null`, with `' '`, `'\t'`, `'\n'`, `'\r'` as
  inter-token whitespace.  Numeric values are represented as a normalized
  decimal mantissa/exponent pair, so the Python `int`/`float` distinction and
  binary-float rounding are abstracted away; the non-standard literals
  `NaN`/`Infinity` and lone surrogate escapes are outside the model.
* character classes: `\w` is modelled as ASCII alphanumerics plus `'_'`, and
  Python whitespace (`\s`, `str.strip()`, `str.isspace`) as the documented
  `Py_UNICODE_ISSPACE` set.
-/

namespace JsonRepair

/-- Models the Python whitespace character set used by `str.strip()` and the
regex class `\s`: `0x09`-`0x0D`, `0x1C`-`0x1F`, space, NEL, NBSP and the
Unicode space separators. -/
def pySpace (c : Char) : Bool :=
  let n := c.toNat
  (0x09 ≤ n && n ≤ 0x0D) || n == 0x20 || (0x1C ≤ n && n ≤ 0x1F) || n == 0x85 ||
  n == 0xA0 || n == 0x1680 || (0x2000 ≤ n && n ≤ 0x200A) || n == 0x2028 ||
  n == 0x2029 || n == 0x202F || n == 0x205F || n == 0x3000

/-- Models the whitespace skipped between tokens by `json.loads`:
space, tab, line feed, carriage return. -/
def jsonWs (c : Char) : Bool := c == ' ' || c == '\t' || c == '\n' || c == '\r'

/-- Drops the longest suffix all of whose elements satisfy `p`. -/
def dropEndWhile (p : α → Bool) (l : List α) : List α :=
  (l.reverse.dropWhile p).reverse

/-- Models Python `str.strip()` with no arguments. -/
def pyStrip (cs : List Char) : List Char :=
  dropEndWhile pySpace (cs.dropWhile pySpace)

/-- Models `re.sub(r'[\n\t\r]', '', x)` (strategy 2 and the precompiled
`WHITESPACE_PATTERN`). -/
def removeNTR (cs : List Char) : List Char :=
  cs.filter fun c => !(c == '\n' || c == '\t' || c == '\r')

/-- Fuel-based worker for `collapseWs`; any fuel at least the list length is
enough, since every step consumes at least one character. -/
def collapseWsF : Nat → List Char → List Char
  | 0, _ => []
  | f + 1, cs =>
    match cs with
    | [] => []
    | c :: rest =>
      if pySpace c then ' ' :: collapseWsF f (rest.dropWhile pySpace)
      else c :: collapseWsF f rest

/-- Models `re.sub(r'\s+', ' ', x)` (strategy 5 and the precompiled
`MULTIPLE_SPACES_PATTERN`): each maximal run of whitespace becomes a single
space. -/
def collapseWs (cs : List Char) : List Char := collapseWsF cs.length cs

/-- Models `re.sub(r',\s*C', 'C', s)` for a closing character `C` (the
trailing-comma removal in `repair_json` / the precompiled
`TRAILING_COMMA_BRACE` and `TRAILING_COMMA_BRACKET`): a leftmost match is a
comma followed by a maximal whitespace run followed by `C`, replaced by `C`;
scanning resumes after the match. -/
def subCommaCloseF (close : Char) : Nat → List Char → List Char
  | 0, _ => []
  | f + 1, cs =>
    match cs with
    | [] => []
    | c :: rest =>
      if c = ',' then
        match rest.dropWhile pySpace with
        | c2 :: r3 =>
          if c2 = close then close :: subCommaCloseF close f r3
          else c :: subCommaCloseF close f rest
        | [] => c :: subCommaCloseF close f rest
      else c :: subCommaCloseF close f rest

/-- Models `re.sub(r',\s*C', 'C', s)` for a closing character `C`. -/
def subCommaClose (close : Char) (cs : List Char) : List Char :=
  subCommaCloseF close cs.length cs

/-- Models the regex class `\w` as used by `(\w+):` (`UNQUOTED_KEYS`);
ASCII alphanumerics and underscore (the model omits non-ASCII word
characters). -/
def wordChar (c : Char) : Bool := c.isAlphanum || c == '_'

def keyQuoteF : Nat → List Char → List Char
  | 0, _ => []
  | f + 1, cs =>
    match cs with
    | [] => []
    | c :: rest =>
      if wordChar c then
        match rest.dropWhile wordChar with
        | ':' :: r3 =>
          '"' :: c :: rest.takeWhile wordChar ++ '"' :: ':' :: keyQuoteF f r3
        | r2 => c :: rest.takeWhile wordChar ++ keyQuoteF f r2
      else c :: keyQuoteF f rest

/-- Models `re.sub(r'(\w+):', r'"\1":', s)` (the unquoted-key fix): a
leftmost match is a maximal word-character run immediately followed by a
colon; the run is wrapped in double quotes, and scanning resumes after the
colon (a run not followed by a colon can contain no later match start, so
scanning resumes after the run). -/
def keyQuote (cs : List Char) : List Char := keyQuoteF cs.length cs

/-- Models `s.replace("'", '"')`. -/
def squoteToDquote (cs : List Char) : List Char :=
  cs.map fun c => if c = '\'' then '"' else c

/-- Tests `s.startswith(('{', '['))`. -/
def startsWithBrace : List Char → Bool
  | c :: _ => c == '{' || c == '['
  | [] => false

/-- Tests `s.endswith(('}', ']'))`. -/
def endsWithBrace (cs : List Char) : Bool :=
  match cs.getLast? with
  | some c => c == '}' || c == ']'
  | none => false

/-- Models `repair_json` (json_parser_optimized.py lines 40-77). -/
def repairJson (cs : List Char) : List Char :=
  if cs = [] then cs
  else
    let r := squoteToDquote (keyQuote (subCommaClose ']'
      (subCommaClose '}' (pyStrip cs))))
    if !(startsWithBrace r && endsWithBrace r) then
      let r1 := if !startsWithBrace r then '{' :: r else r
      if !endsWithBrace r1 then r1 ++ ['}'] else r1
    else r

/-- Models `repair_json_fast` (json_parser_performance_optimized.py lines
27-48): identical to `repair_json` except that the bracket-completion step is
additionally guarded by `repaired` being non-empty. -/
def repairJsonFast (cs : List Char) : List Char :=
  if cs = [] then cs
  else
    let r := squoteToDquote (keyQuote (subCommaClose ']'
      (subCommaClose '}' (pyStrip cs))))
    if r ≠ [] && !(startsWithBrace r && endsWithBrace r) then
      let r1 := if !startsWithBrace r then '{' :: r else r
      if !endsWithBrace r1 then r1 ++ ['}'] else r1
    else r

/-- Decoded JSON values (the result type of `json.loads`).  Numbers are the
value `m * 10 ^ e` with the mantissa/exponent pair kept normalized (`m` not
divisible by 10 unless the value is 0); this identifies Python `int` and
`float` results denoting the same decimal value. -/
inductive Json where
  | null : Json
  | bool (b : Bool) : Json
  | num (m : Int) (e : Int) : Json
  | str (s : List Char) : Json
  | arr (elems : List Json) : Json
  | obj (entries : List (List Char × Json)) : Json

/-- Removes factors of 10 from a natural mantissa, shifting the exponent;
the first argument is recursion fuel (any value at least the mantissa is
enough). -/
def normLoop : Nat → Nat → Int → Nat × Int
  | 0, n, e => (n, e)
  | f + 1, n, e =>
    if n ≠ 0 ∧ n % 10 = 0 then normLoop f (n / 10) (e + 1) else (n, e)

/-- Normal form of a decimal mantissa/exponent pair. -/
def normNum (m : Int) (e : Int) : Int × Int :=
  if m = 0 then (0, 0)
  else
    let p := normLoop m.natAbs m.natAbs e
    (if m < 0 then -(p.1 : Int) else (p.1 : Int), p.2)

def digitChar (n : Nat) : Char := Char.ofNat (48 + n)

/-- Decimal digits of a natural number, most significant first; the first
argument is recursion fuel (any value above the number of digits is
enough). -/
def natCharsF : Nat → Nat → List Char
  | 0, _ => []
  | f + 1, n =>
    if n < 10 then [digitChar n] else natCharsF f (n / 10) ++ [digitChar (n % 10)]

def natChars (n : Nat) : List Char := natCharsF (n + 1) n

def intChars (m : Int) : List Char :=
  if m < 0 then '-' :: natChars m.natAbs else natChars m.natAbs

def hexDigitChar (n : Nat) : Char :=
  if n < 10 then Char.ofNat (48 + n) else Char.ofNat (87 + n)

/-- Value of a hexadecimal digit character, either case. -/
def hexVal (c : Char) : Option Nat :=
  let n := c.toNat
  if 48 ≤ n ∧ n ≤ 57 then some (n - 48)
  else if 97 ≤ n ∧ n ≤ 102 then some (n - 87)
  else if 65 ≤ n ∧ n ≤ 70 then some (n - 55)
  else none

/-- JSON string escaping for one character: mandatory escapes for the quote,
the backslash and control characters (short escapes where JSON has them,
`\u00XX` otherwise); all other characters are emitted literally. -/
def escapeChar (c : Char) : List Char :=
  if c = '"' then ['\\', '"']
  else if c = '\\' then ['\\', '\\']
  else if c = '\x08' then ['\\', 'b']
  else if c = '\t' then ['\\', 't']
  else if c = '\n' then ['\\', 'n']
  else if c = '\x0c' then ['\\', 'f']
  else if c = '\r' then ['\\', 'r']
  else if c.toNat < 0x20 then
    ['\\', 'u', '0', '0', hexDigitChar (c.toNat / 16), hexDigitChar (c.toNat % 16)]
  else [c]

def escapeStr : List Char → List Char
  | [] => []
  | c :: cs => escapeChar c ++ escapeStr cs

mutual
/-- Models serializing a decoded value back to JSON text (`json.dumps`,
modulo the `ensure_ascii` escaping of non-ASCII characters and item/key
separator spacing, which do not affect what the text decodes to). -/
def dumpsV : Json → List Char
  | .null => ['n', 'u', 'l', 'l']
  | .bool b => if b then ['t', 'r', 'u', 'e'] else ['f', 'a', 'l', 's', 'e']
  | .num m e => intChars m ++ (if e = 0 then [] else 'e' :: intChars e)
  | .str s => '"' :: (escapeStr s ++ ['"'])
  | .arr es => '[' :: (dumpsArr es ++ [']'])
  | .obj es => '{' :: (dumpsObj es ++ ['}'])

def dumpsArr : List Json → List Char
  | [] => []
  | [v] => dumpsV v
  | v :: vs => dumpsV v ++ ',' :: dumpsArr vs

def dumpsObj : List (List Char × Json) → List Char
  | [] => []
  | [(k, v)] => '"' :: (escapeStr k ++ '"' :: ':' :: dumpsV v)
  | (k, v) :: kvs =>
    ('"' :: (escapeStr k ++ '"' :: ':' :: dumpsV v)) ++ ',' :: dumpsObj kvs
end

/-- One step of the string scanner of `json.loads` (strict mode, applied
after the opening quote): `none` on error, `some (none, rest)` when the
closing quote is consumed, and `some (some c, rest)` when one content
character `c` is produced — an ordinary character (raw control characters
below `0x20` are rejected), a short escape, or `\uXXXX` with surrogate-pair
combination.  Lone surrogate escapes, which Python turns into unpaired
surrogate code units, have no `Char` counterpart and are rejected. -/
def strStep : List Char → Option (Option Char × List Char)
  | [] => none
  | c :: rest =>
    if c = '"' then some (none, rest)
    else if c = '\\' then
      match rest with
      | [] => none
      | e :: r =>
        if e = '"' then some (some '"', r)
        else if e = '\\' then some (some '\\', r)
        else if e = '/' then some (some '/', r)
        else if e = 'b' then some (some '\x08', r)
        else if e = 'f' then some (some '\x0c', r)
        else if e = 'n' then some (some '\n', r)
        else if e = 'r' then some (some '\r', r)
        else if e = 't' then some (some '\t', r)
        else if e = 'u' then
          match r with
          | h1 :: h2 :: h3 :: h4 :: rr =>
            match hexVal h1, hexVal h2, hexVal h3, hexVal h4 with
            | some a, some b, some c', some d =>
              let n := ((a * 16 + b) * 16 + c') * 16 + d
              if n < 0xD800 ∨ 0xE000 ≤ n then some (some (Char.ofNat n), rr)
              else if n < 0xDC00 then
                match rr with
                | b1 :: b2 :: g1 :: g2 :: g3 :: g4 :: r2 =>
                  if b1 = '\\' ∧ b2 = 'u' then
                    match hexVal g1, hexVal g2, hexVal g3, hexVal g4 with
                    | some a2, some b2', some c2, some d2 =>
                      let n2 := ((a2 * 16 + b2') * 16 + c2) * 16 + d2
                      if 0xDC00 ≤ n2 ∧ n2 < 0xE000 then
                        some (some (Char.ofNat
                          (0x10000 + (n - 0xD800) * 0x400 + (n2 - 0xDC00))),
                          r2)
                      else none
                    | _, _, _, _ => none
                  else none
                | _ => none
              else none
            | _, _, _, _ => none
          | _ => none
        else none
    else if c.toNat < 0x20 then none
    else some (some c, rest)

/-- Fuel-based loop over `strStep`; every step consumes at least one
character, so fuel equal to the input length is enough. -/
def parseStrBodyF : Nat → List Char → Option (List Char × List Char)
  | 0, _ => none
  | f + 1, cs =>
    match strStep cs with
    | none => none
    | some (none, rest) => some ([], rest)
    | some (some c, rest) =>
      (parseStrBodyF f rest).map fun p => (c :: p.1, p.2)

/-- Models the string scanner of `json.loads` after the opening quote. -/
def parseStrBody (cs : List Char) : Option (List Char × List Char) :=
  parseStrBodyF cs.length cs

/-- Accumulates decimal digit characters onto `acc`. -/
def digitsToNat (acc : Nat) : List Char → Nat
  | [] => acc
  | c :: cs => digitsToNat (acc * 10 + (c.toNat - 48)) cs

/-- Models the integer part `(0|[1-9]\d*)` of the number regex of
`json.loads`: a lone zero, or a maximal digit run not starting with zero. -/
def parseIntPart : List Char → Option (Nat × List Char)
  | [] => none
  | c :: rest =>
    if c = '0' then some (0, rest)
    else if c.isDigit then
      some (digitsToNat (c.toNat - 48) (rest.takeWhile Char.isDigit),
            rest.dropWhile Char.isDigit)
    else none

/-- Models the optional fraction group `(\.\d+)?`: returns the fraction
digits' value and count; if the group does not match, nothing is consumed. -/
def parseFrac : List Char → (Nat × Nat) × List Char
  | [] => ((0, 0), [])
  | c :: rest =>
    if c = '.' then
      if (rest.takeWhile Char.isDigit) = [] then ((0, 0), c :: rest)
      else ((digitsToNat 0 (rest.takeWhile Char.isDigit),
             (rest.takeWhile Char.isDigit).length),
            rest.dropWhile Char.isDigit)
    else ((0, 0), c :: rest)

/-- Models the optional exponent group `([eE][-+]?\d+)?`: if the group does
not match completely, nothing is consumed. -/
def parseExp : List Char → Int × List Char
  | [] => (0, [])
  | c :: rest =>
    if c = 'e' ∨ c = 'E' then
      match rest with
      | [] => (0, c :: rest)
      | d :: r2 =>
        if d = '-' then
          if (r2.takeWhile Char.isDigit) = [] then (0, c :: rest)
          else (-(digitsToNat 0 (r2.takeWhile Char.isDigit) : Int),
                r2.dropWhile Char.isDigit)
        else if d = '+' then
          if (r2.takeWhile Char.isDigit) = [] then (0, c :: rest)
          else ((digitsToNat 0 (r2.takeWhile Char.isDigit) : Int),
                r2.dropWhile Char.isDigit)
        else
          if (rest.takeWhile Char.isDigit) = [] then (0, c :: rest)
          else ((digitsToNat 0 (rest.takeWhile Char.isDigit) : Int),
                rest.dropWhile Char.isDigit)
    else (0, c :: rest)

/-- Models the number scanner of `json.loads`
(`-?(0|[1-9]\d*)(\.\d+)?([eE][-+]?\d+)?`), returning the normalized decimal
value. -/
def parseNumber (cs : List Char) : Option (Json × List Char) :=
  let sc : Bool × List Char := match cs with
    | [] => (false, [])
    | c :: r => if c = '-' then (true, r) else (false, c :: r)
  match parseIntPart sc.2 with
  | none => none
  | some (ip, cs2) =>
    let fr := parseFrac cs2
    let ex := parseExp fr.2
    let mant : Int := (ip * 10 ^ fr.1.2 + fr.1.1 : Nat)
    let mant : Int := if sc.1 then -mant else mant
    let p := normNum mant (ex.1 - (fr.1.2 : Int))
    some (.num p.1 p.2, ex.2)

/-- Inserts a key/value pair with Python `dict` semantics: an existing key
keeps its position and gets the new value, a new key is appended. -/
def insertEntry (es : List (List Char × Json)) (k : List Char) (v : Json) :
    List (List Char × Json) :=
  if es.any fun kv => kv.1 = k then
    es.map fun kv => if kv.1 = k then (k, v) else kv
  else es ++ [(k, v)]

mutual
/-- Models the value scanner of `json.loads` (`scan_once`): dispatches on the
first character; no leading whitespace is skipped.  The `fuel` argument only
bounds recursion depth; every recursive call consumes at least one character
first, so `length + 1` fuel never runs out. -/
def parseValue : Nat → List Char → Option (Json × List Char)
  | 0, _ => none
  | _ + 1, [] => none
  | fuel + 1, c :: cs =>
    if c = '{' then
      match cs.dropWhile jsonWs with
      | [] => none
      | c1 :: cs1 =>
        if c1 = '}' then some (.obj [], cs1)
        else parseMembers fuel (c1 :: cs1) []
    else if c = '[' then
      match cs.dropWhile jsonWs with
      | [] => none
      | c1 :: cs1 =>
        if c1 = ']' then some (.arr [], cs1)
        else parseElems fuel (c1 :: cs1) []
    else if c = '"' then
      (parseStrBody cs).map fun p => (.str p.1, p.2)
    else if c = 't' then
      match cs with
      | c1 :: c2 :: c3 :: r =>
        if c1 = 'r' ∧ c2 = 'u' ∧ c3 = 'e' then some (.bool true, r) else none
      | _ => none
    else if c = 'f' then
      match cs with
      | c1 :: c2 :: c3 :: c4 :: r =>
        if c1 = 'a' ∧ c2 = 'l' ∧ c3 = 's' ∧ c4 = 'e' then
          some (.bool false, r)
        else none
      | _ => none
    else if c = 'n' then
      match cs with
      | c1 :: c2 :: c3 :: r =>
        if c1 = 'u' ∧ c2 = 'l' ∧ c3 = 'l' then some (.null, r) else none
      | _ => none
    else if c = '-' ∨ c.isDigit then parseNumber (c :: cs)
    else none

/-- Models the object-member loop of `json.loads`: expects a key string at
the head, then colon, value, and a comma (continue) or closing brace (stop),
with whitespace skipped between tokens; duplicate keys follow `dict`
semantics (last value wins). -/
def parseMembers : Nat → List Char → List (List Char × Json) →
    Option (Json × List Char)
  | 0, _, _ => none
  | fuel + 1, cs, acc =>
    match cs with
    | [] => none
    | c :: cs1 =>
      if c = '"' then
        match parseStrBody cs1 with
        | none => none
        | some (k, cs2) =>
          match cs2.dropWhile jsonWs with
          | [] => none
          | c2 :: cs3 =>
            if c2 = ':' then
              match parseValue fuel (cs3.dropWhile jsonWs) with
              | none => none
              | some (v, cs4) =>
                match cs4.dropWhile jsonWs with
                | [] => none
                | c3 :: cs5 =>
                  if c3 = ',' then
                    parseMembers fuel (cs5.dropWhile jsonWs)
                      (insertEntry acc k v)
                  else if c3 = '}' then
                    some (.obj (insertEntry acc k v), cs5)
                  else none
            else none
      else none

/-- Models the array-element loop of `json.loads`: a value, then a comma
(continue) or closing bracket (stop), with whitespace skipped between
tokens. -/
def parseElems : Nat → List Char → List Json → Option (Json × List Char)
  | 0, _, _ => none
  | fuel + 1, cs, acc =>
    match parseValue fuel cs with
    | none => none
    | some (v, cs2) =>
      match cs2.dropWhile jsonWs with
      | [] => none
      | c :: cs3 =>
        if c = ',' then parseElems fuel (cs3.dropWhile jsonWs) (acc ++ [v])
        else if c = ']' then some (.arr (acc ++ [v]), cs3)
        else none
end

/-- Models `json.loads`: skip whitespace, scan one value, require only
whitespace to remain. -/
def loads (cs : List Char) : Option Json :=
  match parseValue (cs.length + 1) (cs.dropWhile jsonWs) with
  | some (v, rest) => if rest.dropWhile jsonWs = [] then some v else none
  | none => none

/-- Models a Python argument passed to `parse`: either a `str`, or a value of
any other type (covering `None`, numbers, ...), which the
`isinstance(json_str, str)` checks reject. -/
inductive PyInput where
  | str (cs : List Char)
  | nonStr
deriving DecidableEq

/-- Models `json_str_parser` (json_parser_optimized.py lines 22-38): reject
empty or whitespace-only input, strip, decode, and convert decode errors to
`None`.  Python returns `json.loads(...)` unchecked, so a decoded JSON
`null` (Python `None`) is indistinguishable from the failure return; the
model collapses it to `none` accordingly.  A decoded non-mapping value is
returned as is. -/
def jsonStrParser (cs : List Char) : Option Json :=
  if cs = [] then none
  else if pyStrip cs = [] then none
  else
    match loads (pyStrip cs) with
    | some .null => none
    | some v => some v
    | none => none

/-- Models `json_str_parser_fast` (json_parser_performance_optimized.py
lines 12-25): same checks in a different order, same result. -/
def jsonStrParserFast (cs : List Char) : Option Json :=
  if cs = [] then none
  else if pyStrip cs = [] then none
  else
    match loads (pyStrip cs) with
    | some .null => none
    | some v => some v
    | none => none

/-- Models `JSONParsingStrategy` (lines 79-93): the processor may raise,
which `Except.error` represents. -/
structure Strategy where
  name : List Char
  processor : List Char → Except Unit (List Char)
  description : List Char

/-- Models `JSONParsingStrategy.apply` (lines 87-93): a raising processor is
caught and the original string is returned unchanged. -/
def applyStrategy (st : Strategy) (cs : List Char) : List Char :=
  match st.processor cs with
  | .ok r => r
  | .error _ => cs

/-- Models the strategy loop inside `JSONParserOptimized.parse` (lines
167-186): apply each strategy to the original string in order and return the
first successful decode.  The surrounding `try`/`except` is unreachable
because `apply` already absorbs processor exceptions and `json_str_parser`
absorbs decode exceptions. -/
def tryStrategies : List Strategy → List Char → Option Json
  | [], _ => none
  | st :: rest, cs =>
    match jsonStrParser (applyStrategy st cs) with
    | some v => some v
    | none => tryStrategies rest cs

/-- Models the six built-in strategies installed by
`JSONParserOptimized.__init__` (lines 110-141). -/
def defaultStrategies : List Strategy :=
  [⟨"原始解析".data, fun x => .ok x, "直接解析原始字符串".data⟩,
   ⟨"清理空白".data, fun x => .ok (removeNTR x), "移除换行符、制表符和回车符".data⟩,
   ⟨"修复原始".data, fun x => .ok (repairJson x), "使用修复函数处理原始字符串".data⟩,
   ⟨"清理并修复".data, fun x => .ok (repairJson (removeNTR x)), "先清理空白再修复".data⟩,
   ⟨"深度清理".data, fun x => .ok (pyStrip (collapseWs x)), "压缩所有连续空白为单个空格".data⟩,
   ⟨"深度修复".data, fun x => .ok (repairJson (pyStrip (collapseWs x))), "深度清理后再修复".data⟩]

/-- Models the mutable state of a `JSONParserOptimized` instance: its
strategy list (`self._strategies`). -/
structure ParserState where
  strategies : List Strategy

/-- Models `JSONParserOptimized()` (default construction). -/
def initParser : ParserState := ⟨defaultStrategies⟩

/-- Models `JSONParserOptimized.add_custom_strategy` (lines 192-203). -/
def addCustomStrategy (p : ParserState) (name : List Char)
    (proc : List Char → Except Unit (List Char)) (descr : List Char) :
    ParserState :=
  ⟨p.strategies ++ [⟨name, proc, descr⟩]⟩

/-- Models `JSONParserOptimized.parse` (lines 143-190) over a given strategy
list: non-`str` input and empty or whitespace-only strings short-circuit to
the empty dict; otherwise the strategy loop runs and a total failure yields
the empty dict. -/
def parseWith (strats : List Strategy) : PyInput → Json
  | .nonStr => .obj []
  | .str cs =>
    if cs = [] then .obj []
    else if pyStrip cs = [] then .obj []
    else
      match tryStrategies strats cs with
      | some v => v
      | none => .obj []

/-- Models the bound method `parse` of a parser instance. -/
def ParserState.parse (p : ParserState) (inp : PyInput) : Json :=
  parseWith p.strategies inp

/-- Models `json_str_parser_all_optimized`
(json_parser_performance_optimized.py lines 50-110): the hand-inlined
pipeline, which skips strategy 2 when stripping `[\n\t\r]` changes nothing
and skips strategies 5-6 when whitespace collapsing changes nothing. -/
def jsonStrParserAllOptimized : PyInput → Json
  | .nonStr => .obj []
  | .str cs =>
    if cs = [] then .obj []
    else
      match jsonStrParserFast cs with
      | some r => r
      | none =>
        let cleaned := removeNTR cs
        match (if cleaned ≠ cs then jsonStrParserFast cleaned else none) with
        | some r => r
        | none =>
          match jsonStrParserFast (repairJsonFast cs) with
          | some r => r
          | none =>
            match jsonStrParserFast (repairJsonFast cleaned) with
            | some r => r
            | none =>
              let deep := pyStrip (collapseWs cs)
              match (if deep ≠ cs then
                       match jsonStrParserFast deep with
                       | some r => some r
                       | none => jsonStrParserFast (repairJsonFast deep)
                     else none) with
              | some r => r
              | none => .obj []

/-- Models the global `_parse_cache` dict: insertion-ordered key/value
pairs. -/
abbrev Cache := List (List Char × Json)

/-- Models `_cache_size_limit = 1000`. -/
def cacheSizeLimit : Nat := 1000

/-- Models the membership test and read `_parse_cache[json_str]`. -/
def cacheLookup (cache : Cache) (k : List Char) : Option Json :=
  match cache.find? fun kv => kv.1 = k with
  | some kv => some kv.2
  | none => none

/-- Models `json_str_parser_all_cached` (lines 144-161) with the global
cache passed explicitly; returns the result and the cache after the call.
The `.copy()` calls on hit and store copy values; in this pure model a copy
is the value itself (aliasing of nested containers is studied separately in
the heap model below). -/
def jsonStrParserAllCached (inp : PyInput) (useCache : Bool) (cache : Cache) :
    Json × Cache :=
  match inp with
  | .nonStr => (.obj [], cache)
  | .str k =>
    match (if useCache then cacheLookup cache k else none) with
    | some v => (v, cache)
    | none =>
      let result := jsonStrParserAllOptimized (.str k)
      if useCache && cache.length < cacheSizeLimit then
        (result, cache ++ [(k, result)])
      else (result, cache)

/-- Models `clear_cache` (lines 163-166). -/
def clearCache (_cache : Cache) : Cache := []

/-- Characters that could extend a just-finished number literal: a digit,
a decimal point, or an exponent marker.  A number parse is portable to any
continuation that does not start with one of these. -/
def stopOK : List Char → Bool
  | [] => true
  | c :: _ => !(c.isDigit || c == '.' || c == 'e' || c == 'E')

/-- The characters on which the value scanner can succeed. -/
def valueStart (c : Char) : Bool :=
  c == '{' || c == '[' || c == '"' || c == 't' || c == 'f' || c == 'n' ||
  c == '-' || c.isDigit

/-- What a successful value scan guarantees (proved in `parse_split`): the
input splits as consumed prefix plus remainder; the prefix starts with a
value-start character, ends with a non-space character, and re-parses, with
any sufficient fuel, in front of any continuation that cannot extend a
number literal. -/
def SplitV (cs : List Char) (v : Json) (rest : List Char) : Prop :=
  ∃ mid, cs = mid ++ rest ∧
    (∃ c t, mid = c :: t ∧ valueStart c = true) ∧
    (∃ d, mid.getLast? = some d ∧ pySpace d = false) ∧
    ∀ f' r', mid.length < f' → stopOK r' = true →
      parseValue f' (mid ++ r') = some (v, r')

/-- What a successful object-member scan guarantees (proved in
`parse_split`): the consumed prefix starts with a double quote, ends with
the closing brace, and re-parses in front of any continuation. -/
def SplitM (cs : List Char) (acc : List (List Char × Json)) (v : Json)
    (rest : List Char) : Prop :=
  ∃ mid, cs = mid ++ rest ∧
    (∃ t, mid = '"' :: t) ∧ mid.getLast? = some '}' ∧
    ∀ f' r', mid.length < f' →
      parseMembers f' (mid ++ r') acc = some (v, r')

/-- What a successful array-element scan guarantees (proved in
`parse_split`): the consumed prefix starts with a value-start character,
ends with the closing bracket, and re-parses in front of any
continuation. -/
def SplitE (cs : List Char) (acc : List Json) (v : Json)
    (rest : List Char) : Prop :=
  ∃ mid, cs = mid ++ rest ∧
    (∃ c t, mid = c :: t ∧ valueStart c = true) ∧
    mid.getLast? = some ']' ∧
    ∀ f' r', mid.length < f' →
      parseElems f' (mid ++ r') acc = some (v, r')

/-- Normal form of decoded numbers (see `Json.num`). -/
def wfNum (m e : Int) : Bool :=
  if m = 0 then e == 0 else !(m % 10 == 0)

mutual
/-- Well-formedness of decoder outputs: numbers normalized and object key
lists duplicate-free, recursively. -/
def wfJson : Json → Bool
  | .null => true
  | .bool _ => true
  | .num m e => wfNum m e
  | .str _ => true
  | .arr es => wfArr es
  | .obj es => wfObj es

def wfArr : List Json → Bool
  | [] => true
  | v :: vs => wfJson v && wfArr vs

def wfObj : List (List Char × Json) → Bool
  | [] => true
  | (k, v) :: kvs =>
    wfJson v && kvs.all (fun kv => !(kv.1 == k)) && wfObj kvs
end

/-! Heap model of Python object aliasing, used to study what the shallow
`dict.copy()` in `json_str_parser_all_cached` shares between the cache and
its callers.  Containers live in a heap of nodes addressed by index;
scalar values are stored inline. -/

/-- A Python reference: scalars inline, containers by heap address. -/
inductive HVal where
  | null : HVal
  | bool (b : Bool) : HVal
  | num (m : Int) (e : Int) : HVal
  | str (s : List Char) : HVal
  | listRef (a : Nat) : HVal
  | dictRef (a : Nat) : HVal
deriving DecidableEq

/-- A heap node: the mutable contents of a list or dict object. -/
inductive HNode where
  | list (elems : List HVal) : HNode
  | dict (entries : List (List Char × HVal)) : HNode

/-- The heap: node at address `a` is the entry at index `a`. -/
abbrev Heap := List HNode

/-- Allocates a fresh node, returning the new heap and its address. -/
def halloc (h : Heap) (n : HNode) : Heap × Nat := (h ++ [n], h.length)

mutual
/-- Builds a fresh object graph for a decoded value, as `json.loads` does:
every container is a newly allocated node. -/
def heapify : Heap → Json → Heap × HVal
  | h, .null => (h, .null)
  | h, .bool b => (h, .bool b)
  | h, .num m e => (h, .num m e)
  | h, .str s => (h, .str s)
  | h, .arr es =>
    let p := heapifyList h es
    let q := halloc p.1 (.list p.2)
    (q.1, .listRef q.2)
  | h, .obj es =>
    let p := heapifyEntries h es
    let q := halloc p.1 (.dict p.2)
    (q.1, .dictRef q.2)

def heapifyList : Heap → List Json → Heap × List HVal
  | h, [] => (h, [])
  | h, v :: vs =>
    let p := heapify h v
    let q := heapifyList p.1 vs
    (q.1, p.2 :: q.2)

def heapifyEntries : Heap → List (List Char × Json) →
    Heap × List (List Char × HVal)
  | h, [] => (h, [])
  | h, (k, v) :: kvs =>
    let p := heapify h v
    let q := heapifyEntries p.1 kvs
    (q.1, (k, p.2) :: q.2)
end

mutual
/-- Reads the pure value a reference currently denotes (fuel-bounded). -/
def readback : Nat → Heap → HVal → Option Json
  | 0, _, _ => none
  | _ + 1, _, .null => some .null
  | _ + 1, _, .bool b => some (.bool b)
  | _ + 1, _, .num m e => some (.num m e)
  | _ + 1, _, .str s => some (.str s)
  | f + 1, h, .listRef a =>
    match h.get? a with
    | some (.list vs) => (readbackList f h vs).map .arr
    | _ => none
  | f + 1, h, .dictRef a =>
    match h.get? a with
    | some (.dict es) => (readbackEntries f h es).map .obj
    | _ => none

def readbackList : Nat → Heap → List HVal → Option (List Json)
  | 0, _, _ => none
  | _ + 1, _, [] => some []
  | f + 1, h, v :: vs =>
    match readback f h v, readbackList f h vs with
    | some j, some js => some (j :: js)
    | _, _ => none

def readbackEntries : Nat → Heap → List (List Char × HVal) →
    Option (List (List Char × Json))
  | 0, _, _ => none
  | _ + 1, _, [] => some []
  | f + 1, h, (k, v) :: kvs =>
    match readback f h v, readbackEntries f h kvs with
    | some j, some js => some ((k, j) :: js)
    | _, _ => none
end

/-- Models Python `.copy()` on a container reference: a fresh top-level node
with the same element references (nested containers stay shared). -/
def shallowCopy (h : Heap) (v : HVal) : Heap × HVal :=
  match v with
  | .listRef a =>
    match h.get? a with
    | some n => let p := halloc h n; (p.1, .listRef p.2)
    | none => (h, v)
  | .dictRef a =>
    match h.get? a with
    | some n => let p := halloc h n; (p.1, .dictRef p.2)
    | none => (h, v)
  | _ => (h, v)

/-- Heap-level mutable state of the cached entry point: the heap plus
`_parse_cache` as key/reference pairs. -/
structure HState where
  heap : Heap
  cache : List (List Char × HVal)

/-- Models `json_str_parser_all_cached(k)` with `use_cache=True` (lines
148-161) at the heap level.  Hit: return `_parse_cache[k].copy()`.  Miss:
compute the pipeline result as a fresh object graph, store `result.copy()`
if below capacity, and return the live `result`. -/
def cachedCallH (st : HState) (k : List Char) : HVal × HState :=
  match st.cache.find? fun kv => kv.1 = k with
  | some kv =>
    let p := shallowCopy st.heap kv.2
    (p.2, ⟨p.1, st.cache⟩)
  | none =>
    let r := heapify st.heap (jsonStrParserAllOptimized (.str k))
    if st.cache.length < cacheSizeLimit then
      let c := shallowCopy r.1 r.2
      (r.2, ⟨c.1, st.cache ++ [(k, c.2)]⟩)
    else (r.2, ⟨r.1, st.cache⟩)

/-- Models the caller-side mutation `ret[key][idx] = newv` on a returned
reference `ret`: writes through the dict entry `key` to the list element at
`idx`. -/
def mutListElem (h : Heap) (ret : HVal) (key : List Char) (idx : Nat)
    (newv : HVal) : Heap :=
  match ret with
  | .dictRef a =>
    match h.get? a with
    | some (.dict es) =>
      match es.find? fun kv => kv.1 = key with
      | some kv =>
        match kv.2 with
        | .listRef la =>
          match h.get? la with
          | some (.list vs) => h.set la (.list (vs.set idx newv))
          | _ => h
        | _ => h
      | none => h
    | _ => h
  | _ => h

/-- An operation on the global cache: a `json_str_parser_all_cached` call or
`clear_cache`. -/
inductive CacheOp where
  | call (inp : PyInput) (useCache : Bool) : CacheOp
  | clear : CacheOp

/-- The cache after one operation. -/
def applyCacheOp (c : Cache) : CacheOp → Cache
  | .call inp u => (jsonStrParserAllCached inp u c).2
  | .clear => clearCache c

/-- The cache after a sequence of operations, starting from the initial
empty `_parse_cache`. -/
def runCacheOps (ops : List CacheOp) : Cache :=
  ops.foldl applyCacheOp []

/-- A cache filled to capacity, for exercising the no-store behaviour. -/
def c6FullCache : Cache := List.replicate cacheSizeLimit (['k'], Json.obj [])

/-- Concrete scenario for the cache-isolation claim: the cached key. -/
def c3Key : List Char := ['{', '"', 'a', '"', ':', ' ', '[', '1', ']', '}']

/-- First cached call on the empty cache: a miss that stores a shallow copy
and returns the live result. -/
def c3FirstCall : HVal × HState := cachedCallH ⟨[], []⟩ c3Key

/-- The heap after the caller mutates the nested list through the returned
mapping: `returned["a"][0] = 2`. -/
def c3MutHeap : Heap :=
  mutListElem c3FirstCall.2.heap c3FirstCall.1 ['a'] 0 (.num 2 0)

/-- Second cached call with the same key after the mutation: a hit. -/
def c3SecondCall : HVal × HState :=
  cachedCallH ⟨c3MutHeap, c3FirstCall.2.cache⟩ c3Key

/-! Theorems about the embedded code. -/

/-- C5: parse("a: 1") returns the mapping binding "a" to 1: the direct and
whitespace-stripped decode attempts fail, the repair transform (both the
class version and repair_json_fast) double-quotes the bare key, prepends
an opening brace and appends a closing brace, and the resulting text
decodes to that mapping. -/
theorem c5_parse_bare_key :
    jsonStrParser ['a', ':', ' ', '1'] = none ∧
    jsonStrParser (removeNTR ['a', ':', ' ', '1']) = none ∧
    repairJson ['a', ':', ' ', '1'] =
      ['{', '"', 'a', '"', ':', ' ', '1', '}'] ∧
    repairJsonFast ['a', ':', ' ', '1'] =
      ['{', '"', 'a', '"', ':', ' ', '1', '}'] ∧
    loads ['{', '"', 'a', '"', ':', ' ', '1', '}'] =
      some (Json.obj [(['a'], Json.num 1 0)]) ∧
    parseWith defaultStrategies (.str ['a', ':', ' ', '1']) =
      Json.obj [(['a'], Json.num 1 0)] :=
  ⟨rfl, rfl, rfl, rfl, rfl, rfl⟩

/-- C2 (code bug): on input "[1, 2]" the decode-attempt wrapper
`json_str_parser` (and `json_str_parser_fast`) does not return the failure
sentinel: it returns the decoded list unchecked, and `parse` returns that
non-mapping value, contradicting the claim, the wrapper's declared
`Optional[Dict]` return type and its docstring. -/
theorem c2_nonmapping_value_returned :
    jsonStrParser ['[', '1', ',', ' ', '2', ']'] =
      some (Json.arr [Json.num 1 0, Json.num 2 0]) ∧
    jsonStrParserFast ['[', '1', ',', ' ', '2', ']'] =
      some (Json.arr [Json.num 1 0, Json.num 2 0]) ∧
    parseWith defaultStrategies (.str ['[', '1', ',', ' ', '2', ']']) =
      Json.arr [Json.num 1 0, Json.num 2 0] ∧
    jsonStrParserAllOptimized (.str ['[', '1', ',', ' ', '2', ']']) =
      Json.arr [Json.num 1 0, Json.num 2 0] ∧
    (∀ m, Json.arr [Json.num 1 0, Json.num 2 0] ≠ Json.obj m) :=
  ⟨rfl, rfl, rfl, rfl, fun _ h => Json.noConfusion h⟩

/-- C3 (code bug): the cache returns shallow copies, so mutating a nested
list inside the mapping returned for key '\x7b"a": [1]\x7d' changes what a
subsequent cached call with the same key returns: after the caller executes
returned["a"][0] = 2, the second call yields the mapping with "a" bound to
[2], not the originally decoded [1]. -/
theorem c3_nested_mutation_corrupts_cache :
    jsonStrParserAllOptimized (.str c3Key) =
      Json.obj [(['a'], Json.arr [Json.num 1 0])] ∧
    readback 10 c3SecondCall.2.heap c3SecondCall.1 =
      some (Json.obj [(['a'], Json.arr [Json.num 2 0])]) ∧
    Json.obj [(['a'], Json.arr [Json.num 2 0])] ≠
      Json.obj [(['a'], Json.arr [Json.num 1 0])] :=
  ⟨rfl, rfl, by simp⟩

theorem dropEndWhile_eq_nil_iff {p : α → Bool} {l : List α} :
    dropEndWhile p l = [] ↔ ∀ x ∈ l, p x = true := by
  unfold dropEndWhile
  rw [List.reverse_eq_nil_iff, List.dropWhile_eq_nil_iff]
  simp

theorem pyStrip_eq_nil_iff {cs : List Char} :
    pyStrip cs = [] ↔ ∀ c ∈ cs, pySpace c = true := by
  unfold pyStrip
  rw [dropEndWhile_eq_nil_iff]
  constructor
  · intro h c hc
    rw [← List.takeWhile_append_dropWhile (p := pySpace) (l := cs)] at hc
    rcases List.mem_append.mp hc with h1 | h1
    · exact List.mem_takeWhile_imp h1
    · exact h c h1
  · intro h c hc
    exact h c ((List.dropWhile_sublist _).mem hc)

theorem mem_collapseWsF {c : Char} :
    ∀ {f : Nat} {cs : List Char}, c ∈ collapseWsF f cs → c = ' ' ∨ c ∈ cs := by
  intro f
  induction f with
  | zero => intro cs h; simp [collapseWsF] at h
  | succ f ih =>
    intro cs h
    cases cs with
    | nil => simp [collapseWsF] at h
    | cons a rest =>
      simp only [collapseWsF] at h
      by_cases ha : pySpace a
      · rw [if_pos ha] at h
        rcases List.mem_cons.mp h with h | h
        · exact Or.inl h
        · rcases ih h with h1 | h1
          · exact Or.inl h1
          · exact Or.inr (List.mem_cons_of_mem a ((List.dropWhile_sublist _).mem h1))
      · rw [if_neg ha] at h
        rcases List.mem_cons.mp h with h | h
        · exact Or.inr (by simp [h])
        · rcases ih h with h1 | h1
          · exact Or.inl h1
          · exact Or.inr (List.mem_cons_of_mem a h1)

theorem pyStrip_removeNTR_eq_nil {cs : List Char} (h : pyStrip cs = []) :
    pyStrip (removeNTR cs) = [] := by
  rw [pyStrip_eq_nil_iff] at h ⊢
  intro c hc
  exact h c (List.mem_of_mem_filter hc)

theorem pyStrip_collapseWs_eq_nil {cs : List Char} (h : pyStrip cs = []) :
    pyStrip (collapseWs cs) = [] := by
  rw [pyStrip_eq_nil_iff] at h ⊢
  intro c hc
  rcases mem_collapseWsF hc with h1 | h1
  · subst h1; decide
  · exact h c h1

theorem repairJsonFast_of_strip_nil {cs : List Char} (h : pyStrip cs = []) :
    repairJsonFast cs = [] := by
  unfold repairJsonFast
  by_cases hc : cs = []
  · simp [hc]
  · simp only [if_neg hc, h]
    simp [subCommaClose, subCommaCloseF, keyQuote, keyQuoteF, squoteToDquote]

theorem jsonStrParserFast_of_strip_nil {cs : List Char}
    (h : pyStrip cs = []) : jsonStrParserFast cs = none := by
  unfold jsonStrParserFast
  by_cases hc : cs = [] <;> simp [hc, h]

theorem jsonStrParserAllOptimized_of_strip_nil {cs : List Char}
    (h : pyStrip cs = []) :
    jsonStrParserAllOptimized (.str cs) = Json.obj [] := by
  unfold jsonStrParserAllOptimized
  by_cases hc : cs = []
  · simp [hc]
  · have h2 : pyStrip (removeNTR cs) = [] := pyStrip_removeNTR_eq_nil h
    have h3 : pyStrip (collapseWs cs) = [] := pyStrip_collapseWs_eq_nil h
    simp only [if_neg hc,
      jsonStrParserFast_of_strip_nil h,
      jsonStrParserFast_of_strip_nil h2,
      repairJsonFast_of_strip_nil h,
      repairJsonFast_of_strip_nil h2, h3]
    simp [jsonStrParserFast, repairJsonFast]

theorem parseWith_of_strip_nil (strats : List Strategy) {cs : List Char}
    (h : pyStrip cs = []) : parseWith strats (.str cs) = Json.obj [] := by
  unfold parseWith
  by_cases hc : cs = [] <;> simp [hc, h]

/-- C8: a non-string input, and an empty or whitespace-only string (the
strings with empty `strip()`), make `parse` return the empty mapping by the
initial short-circuit: for the class parser this holds uniformly in the
strategy list, so no strategy transform (nor its decode attempt) can
influence the result, and `json_str_parser_all_optimized` returns the empty
mapping on the same inputs. -/
theorem c8_short_circuit_empty_and_nonstring (strats : List Strategy)
    (cs : List Char) (h : pyStrip cs = []) :
    parseWith strats PyInput.nonStr = Json.obj [] ∧
    parseWith strats (.str cs) = Json.obj [] ∧
    jsonStrParserAllOptimized PyInput.nonStr = Json.obj [] ∧
    jsonStrParserAllOptimized (.str cs) = Json.obj [] :=
  ⟨rfl, parseWith_of_strip_nil strats h, rfl,
   jsonStrParserAllOptimized_of_strip_nil h⟩

/-- Witness for C8: instantiated at the whitespace-only string " " and a
custom strategy whose transform would decode successfully were it ever
consulted. -/
theorem c8_short_circuit_empty_and_nonstring_witness :
    parseWith [⟨['s'], fun _ => .ok ['{', '}'], []⟩] (.str [' ']) =
      Json.obj [] ∧
    jsonStrParserAllOptimized (.str [' ']) = Json.obj [] :=
  ⟨(c8_short_circuit_empty_and_nonstring
      [⟨['s'], fun _ => .ok ['{', '}'], []⟩] [' '] rfl).2.1,
   (c8_short_circuit_empty_and_nonstring
      [⟨['s'], fun _ => .ok ['{', '}'], []⟩] [' '] rfl).2.2.2⟩

theorem tryStrategies_congr_middle (pre post : List Strategy)
    (s s' : Strategy) (cs : List Char)
    (h : applyStrategy s cs = applyStrategy s' cs) :
    tryStrategies (pre ++ s :: post) cs =
      tryStrategies (pre ++ s' :: post) cs := by
  induction pre with
  | nil => simp [tryStrategies, h]
  | cons a l ih =>
    simp only [List.cons_append, tryStrategies, List.append_eq]
    rw [ih]

theorem tryStrategies_mem_of_some {strats : List Strategy} {cs : List Char}
    {v : Json} (h : tryStrategies strats cs = some v) :
    ∃ st ∈ strats, jsonStrParser (applyStrategy st cs) = some v := by
  induction strats with
  | nil => simp [tryStrategies] at h
  | cons a l ih =>
    simp only [tryStrategies] at h
    cases hj : jsonStrParser (applyStrategy a cs) with
    | some w =>
      rw [hj] at h
      simp at h
      exact ⟨a, List.mem_cons_self a l, by rw [hj, h]⟩
    | none =>
      rw [hj] at h
      obtain ⟨st, hst, hdec⟩ := ih h
      exact ⟨st, List.mem_cons_of_mem a hst, hdec⟩

/-- C4: a strategy whose transform raises on the parsed string does not
propagate the exception: apply catches it and hands the original string to
the decode attempt, which is exactly what the identity strategy does, so the
pipeline continues through the remaining strategies unchanged; and the
overall result is either the empty mapping or the successful decode of some
strategy in the list (the parse function is total, so no input raises). -/
theorem c4_raising_transform_absorbed (pre post : List Strategy)
    (nm ds : List Char) (proc : List Char → Except Unit (List Char))
    (cs : List Char) (hraise : proc cs = .error ()) :
    parseWith (pre ++ ⟨nm, proc, ds⟩ :: post) (.str cs) =
      parseWith (pre ++ ⟨nm, fun x => .ok x, ds⟩ :: post) (.str cs) ∧
    (parseWith (pre ++ ⟨nm, proc, ds⟩ :: post) (.str cs) = Json.obj [] ∨
     ∃ st ∈ pre ++ ⟨nm, proc, ds⟩ :: post,
       jsonStrParser (applyStrategy st cs) =
         some (parseWith (pre ++ ⟨nm, proc, ds⟩ :: post) (.str cs))) := by
  have happ : applyStrategy ⟨nm, proc, ds⟩ cs =
      applyStrategy ⟨nm, fun x => .ok x, ds⟩ cs := by
    simp [applyStrategy, hraise]
  constructor
  · simp only [parseWith]
    rw [tryStrategies_congr_middle pre post _ _ cs happ]
  · simp only [parseWith]
    by_cases h1 : cs = []
    · simp [h1]
    · by_cases h2 : pyStrip cs = []
      · simp [h1, h2]
      · simp only [if_neg h1, if_neg h2]
        cases htry : tryStrategies (pre ++ ⟨nm, proc, ds⟩ :: post) cs with
        | none => exact Or.inl rfl
        | some v =>
          exact Or.inr (tryStrategies_mem_of_some htry)

/-- Witness for C4: a single always-raising strategy on the input text of an
empty object. -/
theorem c4_raising_transform_absorbed_witness :
    parseWith ([] ++ ⟨['b'], fun _ => .error (), ['d']⟩ :: []) (.str ['{', '}']) =
      parseWith ([] ++ ⟨['b'], fun x => .ok x, ['d']⟩ :: []) (.str ['{', '}']) ∧
    (parseWith ([] ++ ⟨['b'], fun _ => .error (), ['d']⟩ :: []) (.str ['{', '}']) =
        Json.obj [] ∨
     ∃ st ∈ [] ++ (⟨['b'], fun _ => .error (), ['d']⟩ : Strategy) :: [],
       jsonStrParser (applyStrategy st ['{', '}']) =
         some (parseWith ([] ++ ⟨['b'], fun _ => .error (), ['d']⟩ :: [])
           (.str ['{', '}']))) :=
  c4_raising_transform_absorbed [] [] ['b'] ['d'] (fun _ => .error ())
    ['{', '}'] rfl

theorem tryStrategies_append (l1 l2 : List Strategy) (cs : List Char) :
    tryStrategies (l1 ++ l2) cs =
      match tryStrategies l1 cs with
      | some v => some v
      | none => tryStrategies l2 cs := by
  induction l1 with
  | nil => simp [tryStrategies]
  | cons a l ih =>
    simp only [List.cons_append, tryStrategies, List.append_eq]
    cases hj : jsonStrParser (applyStrategy a cs) <;> simp [hj, ih]

theorem foldl_addCustomStrategy (customs : List Strategy) (p : ParserState) :
    (customs.foldl
      (fun q st => addCustomStrategy q st.name st.processor st.description)
      p).strategies = p.strategies ++ customs := by
  induction customs generalizing p with
  | nil => simp
  | cons a l ih =>
    rw [List.foldl_cons, ih]
    show (p.strategies ++ [a]) ++ l = p.strategies ++ a :: l
    simp

/-- C7: strategies registered through add_custom_strategy end up appended
after the six built-ins in registration order, and a subsequent parse call
consults them only when the decode attempt of every built-in strategy has
failed; among the customs the first whose transformed text decodes
successfully determines the result (the strategy loop stops at the first
success). -/
theorem c7_custom_strategies_consulted_last (customs : List Strategy)
    (cs : List Char) :
    (customs.foldl
      (fun q st => addCustomStrategy q st.name st.processor st.description)
      initParser).strategies = defaultStrategies ++ customs ∧
    (customs.foldl
      (fun q st => addCustomStrategy q st.name st.processor st.description)
      initParser).parse (.str cs) =
      (if cs = [] ∨ pyStrip cs = [] then Json.obj []
       else
         match tryStrategies defaultStrategies cs with
         | some v => v
         | none =>
           match tryStrategies customs cs with
           | some v => v
           | none => Json.obj []) := by
  refine ⟨foldl_addCustomStrategy customs initParser, ?_⟩
  rw [ParserState.parse, foldl_addCustomStrategy customs initParser]
  show parseWith (defaultStrategies ++ customs) (.str cs) = _
  simp only [parseWith]
  by_cases h1 : cs = []
  · simp [h1]
  · by_cases h2 : pyStrip cs = []
    · simp [h1, h2]
    · simp only [if_neg h1, if_neg h2, h1, h2, or_self, if_false]
      rw [tryStrategies_append]
      cases tryStrategies defaultStrategies cs <;> simp

theorem applyCacheOp_length_le {c : Cache} (h : c.length ≤ cacheSizeLimit)
    (op : CacheOp) : (applyCacheOp c op).length ≤ cacheSizeLimit := by
  cases op with
  | clear => simp [applyCacheOp, clearCache]
  | call inp u =>
    cases inp with
    | nonStr => simpa [applyCacheOp, jsonStrParserAllCached] using h
    | str k =>
      simp only [applyCacheOp, jsonStrParserAllCached]
      cases hl : (if u then cacheLookup c k else none) with
      | some v => simpa using h
      | none =>
        by_cases hb : (u && decide (c.length < cacheSizeLimit)) = true
        · have hlt : c.length < cacheSizeLimit := by
            have := (Bool.and_eq_true _ _).mp hb
            exact of_decide_eq_true this.2
          simp only [hb, if_true]
          simpa using hlt
        · simp only [hb, if_false]
          simpa using h

/-- C6: the cache never exceeds its fixed capacity of 1000 entries: starting
from the empty cache, any sequence of cached-parse calls and clear
operations keeps the length at most 1000; and once at capacity, a
cache-enabled call with an uncached key computes and returns the pipeline
result while leaving the cache untouched (nothing stored, nothing evicted
or replaced). -/
theorem c6_cache_bounded_and_no_eviction :
    (∀ ops : List CacheOp, (runCacheOps ops).length ≤ cacheSizeLimit) ∧
    (∀ (c : Cache) (k : List Char), c.length = cacheSizeLimit →
       cacheLookup c k = none →
       jsonStrParserAllCached (.str k) true c =
         (jsonStrParserAllOptimized (.str k), c)) := by
  constructor
  · intro ops
    have main : ∀ (c : Cache), c.length ≤ cacheSizeLimit →
        (ops.foldl applyCacheOp c).length ≤ cacheSizeLimit := by
      induction ops with
      | nil => intro c h; simpa using h
      | cons op l ih =>
        intro c h
        rw [List.foldl_cons]
        exact ih _ (applyCacheOp_length_le h op)
    exact main [] (by simp [cacheSizeLimit])
  · intro c k hlen hmiss
    simp only [jsonStrParserAllCached, if_pos trivial, hmiss]
    have : ¬ c.length < cacheSizeLimit := by omega
    simp [this]

theorem cacheLookup_replicate_ne {n : Nat} {k k' : List Char} {v : Json}
    (h : ¬ k = k') : cacheLookup (List.replicate n (k, v)) k' = none := by
  induction n with
  | zero => rfl
  | succ n ih =>
    simp only [List.replicate_succ, cacheLookup, List.find?_cons] at *
    simp only [h, decide_eq_false_iff_not.mpr h]
    exact ih

/-- Witness for C6: a cache at capacity (1000 identical entries under key
"k") and the uncached key "x". -/
theorem c6_cache_bounded_and_no_eviction_witness :
    c6FullCache.length = cacheSizeLimit ∧
    cacheLookup c6FullCache ['x'] = none ∧
    jsonStrParserAllCached (.str ['x']) true c6FullCache =
      (jsonStrParserAllOptimized (.str ['x']), c6FullCache) :=
  ⟨by simp [c6FullCache], cacheLookup_replicate_ne (by simp),
   c6_cache_bounded_and_no_eviction.2 c6FullCache ['x']
     (by simp [c6FullCache]) (cacheLookup_replicate_ne (by simp))⟩

theorem jsonStrParser_eq_fast (cs : List Char) :
    jsonStrParser cs = jsonStrParserFast cs := rfl

theorem mem_dropWhile_of_not {p : Char → Bool} {c : Char} {l : List Char}
    (hc : c ∈ l) (hp : p c = false) : c ∈ l.dropWhile p := by
  rw [← List.takeWhile_append_dropWhile (p := p) (l := l)] at hc
  rcases List.mem_append.mp hc with h | h
  · exact absurd (List.mem_takeWhile_imp h) (by simp [hp])
  · exact h

theorem mem_dropEndWhile_of_not {p : Char → Bool} {c : Char} {l : List Char}
    (hc : c ∈ l) (hp : p c = false) : c ∈ dropEndWhile p l := by
  unfold dropEndWhile
  rw [List.mem_reverse]
  exact mem_dropWhile_of_not (by rwa [List.mem_reverse]) hp

theorem mem_pyStrip_of_not {c : Char} {l : List Char} (hc : c ∈ l)
    (hp : pySpace c = false) : c ∈ pyStrip l :=
  mem_dropEndWhile_of_not (mem_dropWhile_of_not hc hp) hp

theorem pyStrip_ne_nil_of_mem {c : Char} {l : List Char} (hc : c ∈ l)
    (hp : pySpace c = false) : pyStrip l ≠ [] := by
  intro h
  rw [pyStrip_eq_nil_iff] at h
  rw [h c hc] at hp
  cases hp

theorem mem_collapseWsF_of_not {c : Char} :
    ∀ {f : Nat} {cs : List Char}, cs.length ≤ f → c ∈ cs →
      pySpace c = false → c ∈ collapseWsF f cs := by
  intro f
  induction f with
  | zero =>
    intro cs hf hc _
    rw [List.length_eq_zero.mp (Nat.le_zero.mp hf)] at hc
    cases hc
  | succ f ih =>
    intro cs hf hc hp
    cases cs with
    | nil => cases hc
    | cons a rest =>
      simp only [collapseWsF]
      simp only [List.length_cons, Nat.add_le_add_iff_right] at hf
      by_cases ha : pySpace a
      · rw [if_pos ha]
        have hca : c ≠ a := fun h => by rw [h, ha] at hp; cases hp
        have hcr : c ∈ rest := by
          rcases List.mem_cons.mp hc with h | h
          · exact absurd h hca
          · exact h
        refine List.mem_cons_of_mem _ (ih ?_ (mem_dropWhile_of_not hcr hp) hp)
        exact le_trans (List.dropWhile_sublist _).length_le hf
      · rw [if_neg ha]
        rcases List.mem_cons.mp hc with h | h
        · rw [h]; exact List.mem_cons_self a _
        · exact List.mem_cons_of_mem _ (ih hf h hp)

theorem mem_collapseWs_of_not {c : Char} {cs : List Char} (hc : c ∈ cs)
    (hp : pySpace c = false) : c ∈ collapseWs cs :=
  mem_collapseWsF_of_not le_rfl hc hp

theorem subCommaClose_ne_nil {close : Char} {cs : List Char} (h : cs ≠ []) :
    subCommaClose close cs ≠ [] := by
  unfold subCommaClose
  cases cs with
  | nil => exact absurd rfl h
  | cons c rest =>
    simp only [List.length_cons, subCommaCloseF]
    by_cases hc : c = ','
    · rw [if_pos hc]
      cases rest.dropWhile pySpace with
      | nil => simp
      | cons c2 r3 => by_cases h2 : c2 = close <;> simp [h2]
    · simp [hc]

theorem keyQuote_ne_nil {cs : List Char} (h : cs ≠ []) : keyQuote cs ≠ [] := by
  unfold keyQuote
  cases cs with
  | nil => exact absurd rfl h
  | cons c rest =>
    simp only [List.length_cons, keyQuoteF]
    by_cases hc : wordChar c
    · rw [if_pos hc]
      cases rest.dropWhile wordChar with
      | nil => simp
      | cons c2 r3 =>
        by_cases h2 : c2 = ':'
        · subst h2; simp
        · cases hc2 : c2 <;> simp_all
    · simp [hc]

theorem squoteToDquote_ne_nil {cs : List Char} (h : cs ≠ []) :
    squoteToDquote cs ≠ [] := by
  simpa [squoteToDquote] using h

theorem repairJson_eq_fast {cs : List Char} (h : pyStrip cs ≠ []) :
    repairJson cs = repairJsonFast cs := by
  have hcs : cs ≠ [] := fun hc => h (by rw [hc]; rfl)
  have hr : squoteToDquote (keyQuote (subCommaClose ']'
      (subCommaClose '}' (pyStrip cs)))) ≠ [] :=
    squoteToDquote_ne_nil (keyQuote_ne_nil (subCommaClose_ne_nil
      (subCommaClose_ne_nil h)))
  unfold repairJson repairJsonFast
  rw [if_neg hcs, if_neg hcs]
  simp only [ne_eq, hr, not_false_eq_true, decide_True, Bool.true_and]

/-- C10: the default-constructed class pipeline and the hand-inlined
json_str_parser_all_optimized compute the same function on every input,
string or not: the inlined version's skipped attempts (strategy 2 when
stripping newlines/tabs changes nothing, strategies 5-6 when whitespace
collapsing changes nothing) are redundant repeats of earlier attempts, and
repair_json and repair_json_fast agree on every string the two pipelines
feed them (they differ only on nonempty strings that strip to empty, which
the whitespace-only short-circuits keep away from the class pipeline and
which the fast pipeline turns into failed decode attempts either way). -/
theorem c10_class_and_inlined_agree (inp : PyInput) :
    initParser.parse inp = jsonStrParserAllOptimized inp := by
  cases inp with
  | nonStr => rfl
  | str cs =>
    show parseWith defaultStrategies (.str cs) = _
    by_cases h1 : cs = []
    · subst h1; rfl
    · by_cases h2 : pyStrip cs = []
      · rw [parseWith_of_strip_nil _ h2, jsonStrParserAllOptimized_of_strip_nil h2]
      · obtain ⟨c0, hc0, hc0s⟩ : ∃ c ∈ cs, pySpace c = false := by
          by_contra hall
          push_neg at hall
          refine h2 (pyStrip_eq_nil_iff.mpr fun c hc => ?_)
          have := hall c hc
          exact Bool.not_eq_false _ |>.mp this
        have e3 : repairJson cs = repairJsonFast cs := repairJson_eq_fast h2
        have hmem4 : c0 ∈ removeNTR cs := by
          rw [removeNTR, List.mem_filter]
          refine ⟨hc0, ?_⟩
          have hn : c0 ≠ '\n' := fun h => by rw [h] at hc0s; cases hc0s
          have ht : c0 ≠ '\t' := fun h => by rw [h] at hc0s; cases hc0s
          have hr : c0 ≠ '\r' := fun h => by rw [h] at hc0s; cases hc0s
          simp [hn, ht, hr]
        have e4 : repairJson (removeNTR cs) = repairJsonFast (removeNTR cs) :=
          repairJson_eq_fast (pyStrip_ne_nil_of_mem hmem4 hc0s)
        have hmem5 : c0 ∈ pyStrip (collapseWs cs) :=
          mem_pyStrip_of_not (mem_collapseWs_of_not hc0 hc0s) hc0s
        have e6 : repairJson (pyStrip (collapseWs cs)) = repairJsonFast (pyStrip (collapseWs cs)) :=
          repairJson_eq_fast (pyStrip_ne_nil_of_mem hmem5 hc0s)
        simp only [parseWith, if_neg h1, if_neg h2]
        simp only [tryStrategies, defaultStrategies, applyStrategy]
        simp only [jsonStrParser_eq_fast, e3, e4, e6]
        simp only [jsonStrParserAllOptimized, if_neg h1]
        by_cases hcl : removeNTR cs = cs
        · by_cases hdp : pyStrip (collapseWs cs) = cs
          · rw [hcl, hdp]
            cases hb1 : jsonStrParserFast cs with
            | some v => simp [hb1]
            | none =>
              cases hb3 : jsonStrParserFast (repairJsonFast cs) with
              | some v => simp [hb1, hb3]
              | none => simp [hb1, hb3]
          · rw [hcl]
            cases hb1 : jsonStrParserFast cs with
            | some v => simp [hb1]
            | none =>
              cases hb3 : jsonStrParserFast (repairJsonFast cs) with
              | some v => simp [hb1, hb3]
              | none =>
                cases hb5 : jsonStrParserFast (pyStrip (collapseWs cs)) with
                | some v => simp [hb1, hb3, hb5, hdp]
                | none =>
                  cases hb6 : jsonStrParserFast (repairJsonFast (pyStrip (collapseWs cs))) with
                  | some v => simp [hb1, hb3, hb5, hb6, hdp]
                  | none => simp [hb1, hb3, hb5, hb6, hdp]
        · by_cases hdp : pyStrip (collapseWs cs) = cs
          · rw [hdp]
            cases hb1 : jsonStrParserFast cs with
            | some v => simp [hb1]
            | none =>
              cases hb2 : jsonStrParserFast (removeNTR cs) with
              | some v => simp [hb1, hb2, hcl]
              | none =>
                cases hb3 : jsonStrParserFast (repairJsonFast cs) with
                | some v => simp [hb1, hb2, hb3, hcl]
                | none =>
                  cases hb4 : jsonStrParserFast (repairJsonFast (removeNTR cs)) with
                  | some v => simp [hb1, hb2, hb3, hb4, hcl]
                  | none => simp [hb1, hb2, hb3, hb4, hcl]
          · cases hb1 : jsonStrParserFast cs with
            | some v => simp [hb1]
            | none =>
              cases hb2 : jsonStrParserFast (removeNTR cs) with
              | some v => simp [hb1, hb2, hcl]
              | none =>
                cases hb3 : jsonStrParserFast (repairJsonFast cs) with
                | some v => simp [hb1, hb2, hb3, hcl]
                | none =>
                  cases hb4 : jsonStrParserFast (repairJsonFast (removeNTR cs)) with
                  | some v => simp [hb1, hb2, hb3, hb4, hcl]
                  | none =>
                    cases hb5 : jsonStrParserFast (pyStrip (collapseWs cs)) with
                    | some v => simp [hb1, hb2, hb3, hb4, hb5, hcl, hdp]
                    | none =>
                      cases hb6 : jsonStrParserFast (repairJsonFast (pyStrip (collapseWs cs))) with
                      | some v => simp [hb1, hb2, hb3, hb4, hb5, hb6, hcl, hdp]
                      | none => simp [hb1, hb2, hb3, hb4, hb5, hb6, hcl, hdp]

theorem dropWhile_append_all {p : Char → Bool} {w z : List Char}
    (h : ∀ c ∈ w, p c = true) : (w ++ z).dropWhile p = z.dropWhile p := by
  induction w with
  | nil => rfl
  | cons a l ih =>
    rw [List.cons_append, List.dropWhile_cons, h a (List.mem_cons_self a l)]
    simp only [if_true]
    exact ih fun c hc => h c (List.mem_cons_of_mem a hc)

theorem dropWhile_cons_neg {p : Char → Bool} {c : Char} {z : List Char}
    (h : p c = false) : (c :: z).dropWhile p = c :: z := by
  rw [List.dropWhile_cons, h]
  simp

theorem takeWhile_append_of {p : Char → Bool} {ds z : List Char}
    (hds : ∀ c ∈ ds, p c = true)
    (hz : ∀ c, z.head? = some c → p c = false) :
    (ds ++ z).takeWhile p = ds ∧ (ds ++ z).dropWhile p = z := by
  induction ds with
  | nil =>
    simp only [List.nil_append]
    cases z with
    | nil => simp
    | cons a t =>
      have := hz a rfl
      simp [List.takeWhile_cons, List.dropWhile_cons, this]
  | cons a l ih =>
    have ha := hds a (List.mem_cons_self a l)
    have ihr := ih fun c hc => hds c (List.mem_cons_of_mem a hc)
    simp [List.takeWhile_cons, List.dropWhile_cons, ha, ihr.1, ihr.2]

theorem dropEndWhile_append_all {p : Char → Bool} {a b : List Char}
    (h : ∀ c ∈ b, p c = true) :
    dropEndWhile p (a ++ b) = dropEndWhile p a := by
  unfold dropEndWhile
  rw [List.reverse_append,
    dropWhile_append_all fun c hc => h c (List.mem_reverse.mp hc)]

theorem dropEndWhile_of_getLast {p : Char → Bool} {l : List Char} {c : Char}
    (hl : l.getLast? = some c) (hc : p c = false) : dropEndWhile p l = l := by
  unfold dropEndWhile
  have h1 : l.reverse.head? = some c := by rw [List.head?_reverse, hl]
  cases hrev : l.reverse with
  | nil => rw [hrev] at h1; cases h1
  | cons d t =>
    rw [hrev] at h1
    injection h1 with h1
    rw [dropWhile_cons_neg (h1 ▸ hc), ← hrev, List.reverse_reverse]

theorem toNat_bounds_of_isDigit {c : Char} (h : c.isDigit = true) :
    48 ≤ c.toNat ∧ c.toNat ≤ 57 := by
  simpa [Char.isDigit] using h

theorem pySpace_of_jsonWs {c : Char} (h : jsonWs c = true) :
    pySpace c = true := by
  simp only [jsonWs, Bool.or_eq_true, beq_iff_eq] at h
  rcases h with ((h | h) | h) | h <;> subst h <;> decide

theorem not_pySpace_of_isDigit {c : Char} (h : c.isDigit = true) :
    pySpace c = false := by
  obtain ⟨h1, h2⟩ := toNat_bounds_of_isDigit h
  rw [Bool.eq_false_iff]
  intro hs
  simp only [pySpace, Bool.or_eq_true, Bool.and_eq_true, beq_iff_eq,
    decide_eq_true_eq] at hs
  omega

theorem not_pySpace_of_valueStart {c : Char} (h : valueStart c = true) :
    pySpace c = false := by
  simp only [valueStart, Bool.or_eq_true, beq_iff_eq] at h
  rcases h with ((((((h | h) | h) | h) | h) | h) | h) | h
  · subst h; decide
  · subst h; decide
  · subst h; decide
  · subst h; decide
  · subst h; decide
  · subst h; decide
  · subst h; decide
  · exact not_pySpace_of_isDigit h

theorem not_jsonWs_of_valueStart {c : Char} (h : valueStart c = true) :
    jsonWs c = false := by
  cases hj : jsonWs c
  · rfl
  · have := pySpace_of_jsonWs hj
    rw [not_pySpace_of_valueStart h] at this
    cases this

theorem valueStart_ne {c : Char} (h : valueStart c = true) :
    c ≠ '}' ∧ c ≠ ']' := by
  simp only [valueStart, Bool.or_eq_true, beq_iff_eq] at h
  rcases h with ((((((h | h) | h) | h) | h) | h) | h) | h
  · subst h; exact ⟨by decide, by decide⟩
  · subst h; exact ⟨by decide, by decide⟩
  · subst h; exact ⟨by decide, by decide⟩
  · subst h; exact ⟨by decide, by decide⟩
  · subst h; exact ⟨by decide, by decide⟩
  · subst h; exact ⟨by decide, by decide⟩
  · subst h; exact ⟨by decide, by decide⟩
  · obtain ⟨h1, h2⟩ := toNat_bounds_of_isDigit h
    constructor
    · intro he; subst he; simp at h2
    · intro he; subst he; simp at h2

theorem strStep_split {cs : List Char} {o : Option Char} {rest : List Char}
    (h : strStep cs = some (o, rest)) :
    ∃ mid, cs = mid ++ rest ∧ mid ≠ [] ∧ (o = none → mid = ['"']) ∧
      ∀ r', strStep (mid ++ r') = some (o, r') := by
  cases cs with
  | nil => cases h
  | cons c cs' =>
    simp only [strStep] at h
    by_cases hq : c = '"'
    · rw [if_pos hq] at h
      simp only [Option.some.injEq, Prod.mk.injEq] at h
      obtain ⟨ho, hr⟩ := h
      subst ho; subst hr; subst hq
      exact ⟨['"'], rfl, by simp, fun _ => rfl, fun r' => by simp [strStep]⟩
    · rw [if_neg hq] at h
      by_cases hb : c = '\\'
      · rw [if_pos hb] at h
        cases cs' with
        | nil => cases h
        | cons e r =>
          subst hb
          dsimp only at h
          by_cases h1 : e = '"'
          · rw [if_pos h1] at h
            simp only [Option.some.injEq, Prod.mk.injEq] at h
            obtain ⟨ho, hr⟩ := h; subst ho; subst hr; subst h1
            exact ⟨['\\', '"'], rfl, by simp, by simp, fun r' => by simp [strStep]⟩
          · rw [if_neg h1] at h
            by_cases h2 : e = '\\'
            · rw [if_pos h2] at h
              simp only [Option.some.injEq, Prod.mk.injEq] at h
              obtain ⟨ho, hr⟩ := h; subst ho; subst hr; subst h2
              exact ⟨['\\', '\\'], rfl, by simp, by simp, fun r' => by simp [strStep]⟩
            · rw [if_neg h2] at h
              by_cases h3 : e = '/'
              · rw [if_pos h3] at h
                simp only [Option.some.injEq, Prod.mk.injEq] at h
                obtain ⟨ho, hr⟩ := h; subst ho; subst hr; subst h3
                exact ⟨['\\', '/'], rfl, by simp, by simp, fun r' => by simp [strStep]⟩
              · rw [if_neg h3] at h
                by_cases h4 : e = 'b'
                · rw [if_pos h4] at h
                  simp only [Option.some.injEq, Prod.mk.injEq] at h
                  obtain ⟨ho, hr⟩ := h; subst ho; subst hr; subst h4
                  exact ⟨['\\', 'b'], rfl, by simp, by simp, fun r' => by simp [strStep]⟩
                · rw [if_neg h4] at h
                  by_cases h5 : e = 'f'
                  · rw [if_pos h5] at h
                    simp only [Option.some.injEq, Prod.mk.injEq] at h
                    obtain ⟨ho, hr⟩ := h; subst ho; subst hr; subst h5
                    exact ⟨['\\', 'f'], rfl, by simp, by simp, fun r' => by simp [strStep]⟩
                  · rw [if_neg h5] at h
                    by_cases h6 : e = 'n'
                    · rw [if_pos h6] at h
                      simp only [Option.some.injEq, Prod.mk.injEq] at h
                      obtain ⟨ho, hr⟩ := h; subst ho; subst hr; subst h6
                      exact ⟨['\\', 'n'], rfl, by simp, by simp, fun r' => by simp [strStep]⟩
                    · rw [if_neg h6] at h
                      by_cases h7 : e = 'r'
                      · rw [if_pos h7] at h
                        simp only [Option.some.injEq, Prod.mk.injEq] at h
                        obtain ⟨ho, hr⟩ := h; subst ho; subst hr; subst h7
                        exact ⟨['\\', 'r'], rfl, by simp, by simp, fun r' => by simp [strStep]⟩
                      · rw [if_neg h7] at h
                        by_cases h8 : e = 't'
                        · rw [if_pos h8] at h
                          simp only [Option.some.injEq, Prod.mk.injEq] at h
                          obtain ⟨ho, hr⟩ := h; subst ho; subst hr; subst h8
                          exact ⟨['\\', 't'], rfl, by simp, by simp, fun r' => by simp [strStep]⟩
                        · rw [if_neg h8] at h
                          by_cases h9 : e = 'u'
                          · rw [if_pos h9] at h
                            subst h9
                            cases r with
                            | nil => cases h
                            | cons hx1 r1 =>
                            cases r1 with
                            | nil => cases h
                            | cons hx2 r2a =>
                            cases r2a with
                            | nil => cases h
                            | cons hx3 r3a =>
                            cases r3a with
                            | nil => cases h
                            | cons hx4 rr =>
                            dsimp only at h
                            cases ha : hexVal hx1 with
                            | none => rw [ha] at h; cases h
                            | some a =>
                            cases hbv : hexVal hx2 with
                            | none => rw [ha, hbv] at h; cases h
                            | some b =>
                            cases hcv : hexVal hx3 with
                            | none => rw [ha, hbv, hcv] at h; cases h
                            | some cv =>
                            cases hdv : hexVal hx4 with
                            | none => rw [ha, hbv, hcv, hdv] at h; cases h
                            | some d =>
                            rw [ha, hbv, hcv, hdv] at h
                            simp only at h
                            by_cases hrange : ((a * 16 + b) * 16 + cv) * 16 + d < 0xD800 ∨ 0xE000 ≤ ((a * 16 + b) * 16 + cv) * 16 + d
                            · rw [if_pos hrange] at h
                              simp only [Option.some.injEq, Prod.mk.injEq] at h
                              obtain ⟨ho, hr⟩ := h; subst ho; subst hr
                              refine ⟨['\\', 'u', hx1, hx2, hx3, hx4], rfl, by simp, by simp, fun r' => ?_⟩
                              simp [strStep, ha, hbv, hcv, hdv, hrange]
                            · rw [if_neg hrange] at h
                              by_cases hlow : ((a * 16 + b) * 16 + cv) * 16 + d < 0xDC00
                              · rw [if_pos hlow] at h
                                cases rr with
                                | nil => cases h
                                | cons b1 s1 =>
                                cases s1 with
                                | nil => cases h
                                | cons b2 s2 =>
                                cases s2 with
                                | nil => cases h
                                | cons g1 s3 =>
                                cases s3 with
                                | nil => cases h
                                | cons g2 s4 =>
                                cases s4 with
                                | nil => cases h
                                | cons g3 s5 =>
                                cases s5 with
                                | nil => cases h
                                | cons g4 r2 =>
                                dsimp only at h
                                by_cases hbu : b1 = '\\' ∧ b2 = 'u'
                                · rw [if_pos hbu] at h
                                  cases ha2 : hexVal g1 with
                                  | none => rw [ha2] at h; cases h
                                  | some a2 =>
                                  cases hb2 : hexVal g2 with
                                  | none => rw [ha2, hb2] at h; cases h
                                  | some b2v =>
                                  cases hc2 : hexVal g3 with
                                  | none => rw [ha2, hb2, hc2] at h; cases h
                                  | some c2v =>
                                  cases hd2 : hexVal g4 with
                                  | none => rw [ha2, hb2, hc2, hd2] at h; cases h
                                  | some d2v =>
                                  rw [ha2, hb2, hc2, hd2] at h
                                  simp only at h
                                  by_cases hr2 : 0xDC00 ≤ ((a2 * 16 + b2v) * 16 + c2v) * 16 + d2v ∧ ((a2 * 16 + b2v) * 16 + c2v) * 16 + d2v < 0xE000
                                  · rw [if_pos hr2] at h
                                    simp only [Option.some.injEq, Prod.mk.injEq] at h
                                    obtain ⟨ho, hrr⟩ := h; subst ho; subst hrr
                                    obtain ⟨hbu1, hbu2⟩ := hbu
                                    subst hbu1; subst hbu2
                                    refine ⟨['\\', 'u', hx1, hx2, hx3, hx4, '\\', 'u', g1, g2, g3, g4], rfl, by simp, by simp, fun r' => ?_⟩
                                    simp [strStep, ha, hbv, hcv, hdv, hrange, hlow, ha2, hb2, hc2, hd2, hr2]
                                  · rw [if_neg hr2] at h; cases h
                                · rw [if_neg hbu] at h; cases h
                              · rw [if_neg hlow] at h; cases h
                          · rw [if_neg h9] at h; cases h
      · rw [if_neg hb] at h
        by_cases hlt : c.toNat < 0x20
        · rw [if_pos hlt] at h; cases h
        · rw [if_neg hlt] at h
          simp only [Option.some.injEq, Prod.mk.injEq] at h
          obtain ⟨ho, hr⟩ := h; subst ho; subst hr
          refine ⟨[c], rfl, by simp, by simp, fun r' => ?_⟩
          simp [strStep, hq, hb, hlt]

theorem toNat_ofNat_of_lt {n : Nat} (h : n < 0xD800) :
    (Char.ofNat n).toNat = n := by
  rw [Char.ofNat, dif_pos (Or.inl h : Nat.isValidChar n)]
  rw [Char.ofNatAux]
  show (BitVec.ofNatLt n _).toNat = n
  simp

theorem getLast?_append_right {a b : List Char} (h : b ≠ []) :
    (a ++ b).getLast? = b.getLast? := by
  rw [← List.head?_reverse, ← List.head?_reverse, List.reverse_append]
  cases hb : b.reverse with
  | nil =>
    exact absurd (by simpa using congrArg List.reverse hb) h
  | cons x t => simp

theorem ne_nil_of_getLast? {l : List Char} {c : Char}
    (h : l.getLast? = some c) : l ≠ [] := by
  cases l with
  | nil => cases h
  | cons a t => simp

theorem hexVal_hexDigitChar {k : Nat} (h : k < 16) :
    hexVal (hexDigitChar k) = some k := by
  unfold hexDigitChar hexVal
  by_cases h10 : k < 10
  · rw [if_pos h10]
    have ht : (Char.ofNat (48 + k)).toNat = 48 + k :=
      toNat_ofNat_of_lt (by omega)
    simp only [ht]
    rw [if_pos (by omega)]
    simp
  · rw [if_neg h10]
    have ht : (Char.ofNat (87 + k)).toNat = 87 + k :=
      toNat_ofNat_of_lt (by omega)
    simp only [ht]
    rw [if_neg (by omega), if_pos (by omega)]
    simp

theorem parseStrBodyF_split :
    ∀ {f : Nat} {cs s rest : List Char},
      parseStrBodyF f cs = some (s, rest) →
      ∃ mid, cs = mid ++ rest ∧ mid.getLast? = some '"' ∧
        ∀ f' r', mid.length ≤ f' → parseStrBodyF f' (mid ++ r') = some (s, r') := by
  intro f
  induction f with
  | zero => intro cs s rest h; cases h
  | succ f ih =>
    intro cs s rest h
    simp only [parseStrBodyF] at h
    cases hs : strStep cs with
    | none => rw [hs] at h; cases h
    | some p =>
      obtain ⟨o, rest1⟩ := p
      rw [hs] at h
      cases o with
      | none =>
        simp only [Option.some.injEq, Prod.mk.injEq] at h
        obtain ⟨hsv, hrv⟩ := h
        subst hsv; subst hrv
        obtain ⟨mid, hcs, _, hquote, _⟩ := strStep_split hs
        rw [hquote rfl] at hcs
        refine ⟨['"'], hcs, rfl, fun f' r' hf => ?_⟩
        cases f' with
        | zero => simp at hf
        | succ f'' => simp [parseStrBodyF, strStep]
      | some c =>
        dsimp only at h
        cases hp : parseStrBodyF f rest1 with
        | none => rw [hp] at h; cases h
        | some q =>
          obtain ⟨s1, rest2⟩ := q
          rw [hp] at h
          simp only [Option.map_some', Option.some.injEq, Prod.mk.injEq] at h
          obtain ⟨hsv, hrv⟩ := h
          subst hsv; subst hrv
          obtain ⟨mid1, hcs1, hne1, _, hrun1⟩ := strStep_split hs
          obtain ⟨mid2, hcs2, hlast2, hrun2⟩ := ih hp
          have hm2ne : mid2 ≠ [] := ne_nil_of_getLast? hlast2
          refine ⟨mid1 ++ mid2, ?_, ?_, ?_⟩
          · rw [hcs1, hcs2, List.append_assoc]
          · rw [getLast?_append_right hm2ne, hlast2]
          · intro f' r' hf
            rw [List.length_append] at hf
            have hm1 : 1 ≤ mid1.length := by
              cases mid1 with
              | nil => exact absurd rfl hne1
              | cons a t => simp
            cases f' with
            | zero => omega
            | succ f'' =>
              simp only [parseStrBodyF, List.append_assoc]
              rw [hrun1 (mid2 ++ r')]
              dsimp only
              rw [hrun2 f'' r' (by omega)]
              rfl

theorem strStep_escapeChar (c : Char) (z : List Char) :
    strStep (escapeChar c ++ z) = some (some c, z) := by
  unfold escapeChar
  by_cases h1 : c = '"'
  · subst h1; simp [strStep]
  · rw [if_neg h1]
    by_cases h2 : c = '\\'
    · subst h2; simp [strStep]
    · rw [if_neg h2]
      by_cases h3 : c = '\x08'
      · subst h3; simp [strStep]
      · rw [if_neg h3]
        by_cases h4 : c = '\t'
        · subst h4; simp [strStep]
        · rw [if_neg h4]
          by_cases h5 : c = '\n'
          · subst h5; simp [strStep]
          · rw [if_neg h5]
            by_cases h6 : c = '\x0c'
            · subst h6; simp [strStep]
            · rw [if_neg h6]
              by_cases h7 : c = '\r'
              · subst h7; simp [strStep]
              · rw [if_neg h7]
                by_cases h8 : c.toNat < 0x20
                · rw [if_pos h8]
                  have hv1 : hexVal (hexDigitChar (c.toNat / 16)) =
                      some (c.toNat / 16) := hexVal_hexDigitChar (by omega)
                  have hv2 : hexVal (hexDigitChar (c.toNat % 16)) =
                      some (c.toNat % 16) := hexVal_hexDigitChar (by omega)
                  have hz : hexVal '0' = some 0 := by decide
                  have harith : c.toNat / 16 * 16 + c.toNat % 16 = c.toNat :=
                    by omega
                  have hlt : c.toNat < 0xD800 := by omega
                  simp only [List.cons_append, List.nil_append]
                  simp [strStep, hz, hv1, hv2, harith, hlt, Char.ofNat_toNat]
                · rw [if_neg h8]
                  simp only [List.cons_append, List.nil_append]
                  simp [strStep, h1, h2, h8]

theorem parseStrBodyF_escape :
    ∀ (s r : List Char) (f : Nat),
      (escapeStr s).length + 1 ≤ f →
      parseStrBodyF f (escapeStr s ++ '"' :: r) = some (s, r) := by
  intro s
  induction s with
  | nil =>
    intro r f hf
    cases f with
    | zero => simp [escapeStr] at hf
    | succ f' => simp [escapeStr, parseStrBodyF, strStep]
  | cons c s' ih =>
    intro r f hf
    have hlen : (escapeChar c).length + (escapeStr s').length + 1 ≤ f := by
      simpa [escapeStr, List.length_append] using hf
    have hec : 1 ≤ (escapeChar c).length := by
      unfold escapeChar
      repeat' split
      all_goals simp
    cases f with
    | zero => omega
    | succ f' =>
      simp only [escapeStr, List.append_assoc, parseStrBodyF]
      rw [strStep_escapeChar c (escapeStr s' ++ '"' :: r)]
      dsimp only
      rw [ih r f' (by omega)]
      rfl

theorem digitsToNat_nil (acc : Nat) : digitsToNat acc [] = acc := rfl

theorem digitsToNat_cons (acc : Nat) (c : Char) (cs : List Char) :
    digitsToNat acc (c :: cs) = digitsToNat (acc * 10 + (c.toNat - 48)) cs :=
  rfl

theorem digitsToNat_append (a b : List Char) :
    ∀ acc, digitsToNat acc (a ++ b) = digitsToNat (digitsToNat acc a) b := by
  induction a with
  | nil => intro acc; rfl
  | cons c t ih =>
    intro acc
    rw [List.cons_append, digitsToNat_cons, ih, digitsToNat_cons]

theorem digitChar_toNat {k : Nat} (h : k < 10) :
    (digitChar k).toNat = 48 + k := by
  unfold digitChar
  exact toNat_ofNat_of_lt (by omega)

theorem digitChar_isDigit {k : Nat} (h : k < 10) :
    (digitChar k).isDigit = true := by
  have ht := digitChar_toNat h
  simp only [Char.isDigit]
  simp only [Char.toNat] at ht
  simp [UInt32.le_def]
  constructor
  · show (48 : UInt32).toBitVec.toNat ≤ _
    simp [UInt32.toNat] at ht ⊢
    omega
  · show _ ≤ (57 : UInt32).toBitVec.toNat
    simp [UInt32.toNat] at ht ⊢
    omega

theorem natCharsF_spec :
    ∀ (f n : Nat), n < f →
      natCharsF f n ≠ [] ∧
      (∀ c ∈ natCharsF f n, c.isDigit = true) ∧
      (∀ acc, digitsToNat acc (natCharsF f n) =
        acc * 10 ^ (natCharsF f n).length + n) ∧
      (1 ≤ n → ∃ c t, natCharsF f n = c :: t ∧ c ≠ '0') := by
  intro f
  induction f with
  | zero => intro n h; omega
  | succ f ih =>
    intro n h
    by_cases h10 : n < 10
    · simp only [natCharsF, if_pos h10]
      refine ⟨by simp, ?_, ?_, ?_⟩
      · intro c hc
        rw [List.mem_singleton.mp hc]
        exact digitChar_isDigit h10
      · intro acc
        rw [digitsToNat_cons, digitsToNat_nil, digitChar_toNat h10]
        simp
        try omega
      · intro h1
        refine ⟨digitChar n, [], rfl, ?_⟩
        intro he
        have h2 := digitChar_toNat h10
        rw [he] at h2
        have h3 : (48 : Nat) = 48 + n := by simpa using h2
        omega
    · simp only [natCharsF, if_neg h10]
      have hrec : n / 10 < f := by omega
      obtain ⟨hne, hdig, hval, hhead⟩ := ih (n / 10) hrec
      refine ⟨by simp [hne], ?_, ?_, ?_⟩
      · intro c hc
        rcases List.mem_append.mp hc with hc | hc
        · exact hdig c hc
        · rw [List.mem_singleton.mp hc]
          exact digitChar_isDigit (by omega)
      · intro acc
        rw [digitsToNat_append, hval acc, digitsToNat_cons, digitsToNat_nil,
          digitChar_toNat (show n % 10 < 10 by omega)]
        simp only [List.length_append, List.length_singleton, pow_succ]
        have hmod : 48 + n % 10 - 48 = n % 10 := by omega
        rw [hmod]
        have hdm : n / 10 * 10 + n % 10 = n := by omega
        ring_nf
        omega
      · intro _
        obtain ⟨c, t, hct, hc0⟩ := hhead (by omega)
        exact ⟨c, t ++ [digitChar (n % 10)], by rw [hct]; simp, hc0⟩

theorem natChars_spec (n : Nat) :
    natChars n ≠ [] ∧
    (∀ c ∈ natChars n, c.isDigit = true) ∧
    digitsToNat 0 (natChars n) = n ∧
    (1 ≤ n → ∃ c t, natChars n = c :: t ∧ c ≠ '0') := by
  obtain ⟨h1, h2, h3, h4⟩ := natCharsF_spec (n + 1) n (by omega)
  refine ⟨h1, h2, ?_, h4⟩
  show digitsToNat 0 (natCharsF (n + 1) n) = n
  rw [h3 0]
  simp

theorem parseIntPart_natChars (n : Nat) (z : List Char)
    (hz : ∀ c, z.head? = some c → c.isDigit = false) :
    parseIntPart (natChars n ++ z) = some (n, z) := by
  obtain ⟨h1, h2, h3, h4⟩ := natChars_spec n
  by_cases hn : n = 0
  · subst hn
    have : natChars 0 = ['0'] := rfl
    rw [this]
    simp [parseIntPart]
  · obtain ⟨c, t, hct, hc0⟩ := h4 (by omega)
    rw [hct, List.cons_append]
    have hcd : c.isDigit = true := h2 c (by rw [hct]; simp)
    have htall : ∀ x ∈ t, x.isDigit = true := by
      intro x hx
      exact h2 x (by rw [hct]; simp [hx])
    obtain ⟨htake, hdrop⟩ := takeWhile_append_of htall hz
    simp only [parseIntPart, if_neg hc0, hcd, if_pos rfl, if_true, htake, hdrop]
    have hv : digitsToNat (c.toNat - 48) t = n := by
      have hthis := h3
      rw [hct, digitsToNat_cons] at hthis
      rw [show 0 * 10 + (c.toNat - 48) = c.toNat - 48 by omega] at hthis
      exact hthis
    rw [hv]


theorem dvd10_iff_natAbs {m : Int} : (10 : Int) ∣ m ↔ 10 ∣ m.natAbs := by
  rw [Int.natAbs_dvd_natAbs.symm]
  norm_num

theorem normLoop_one (n : Nat) (e : Int) (f : Nat) (h : ¬(n ≠ 0 ∧ n % 10 = 0)) :
    normLoop (f + 1) n e = (n, e) := by
  simp only [normLoop, if_neg h]

theorem normLoop_spec : ∀ (f n : Nat) (e : Int), n ≤ f → n ≠ 0 →
    (normLoop f n e).1 ≠ 0 ∧ (normLoop f n e).1 % 10 ≠ 0 := by
  intro f
  induction f with
  | zero => intro n e h hn; omega
  | succ f ih =>
    intro n e h hn
    by_cases hc : n ≠ 0 ∧ n % 10 = 0
    · simp only [normLoop, if_pos hc]
      exact ih (n / 10) (e + 1) (by omega) (by omega)
    · simp only [normLoop, if_neg hc]
      exact ⟨hn, by omega⟩

theorem wfNum_normNum (m e : Int) :
    wfNum (normNum m e).1 (normNum m e).2 = true := by
  unfold normNum
  by_cases hm : m = 0
  · rw [if_pos hm]
    simp [wfNum]
  · rw [if_neg hm]
    have hna : m.natAbs ≠ 0 := fun h => hm (Int.natAbs_eq_zero.mp h)
    obtain ⟨h1, h2⟩ := normLoop_spec m.natAbs m.natAbs e le_rfl hna
    dsimp only
    set p := normLoop m.natAbs m.natAbs e with hp
    set v : Int := if m < 0 then -(p.1 : Int) else (p.1 : Int) with hv
    have hvabs : v.natAbs = p.1 := by rw [hv]; split_ifs <;> simp
    have hvne : v ≠ 0 := by
      intro h
      apply h1
      have := congrArg Int.natAbs h
      simpa [hvabs] using this
    have hmod : v % 10 ≠ 0 := by
      intro h
      have hd : (10 : Int) ∣ v := Int.dvd_of_emod_eq_zero h
      have hd2 : (10 : Nat) ∣ v.natAbs := dvd10_iff_natAbs.mp hd
      rw [hvabs] at hd2
      omega
    simp [wfNum, hvne, hmod]

theorem wfNum_normNum_self {m e : Int} (h : wfNum m e = true) :
    normNum m e = (m, e) := by
  unfold wfNum at h
  unfold normNum
  by_cases hm : m = 0
  · rw [if_pos hm] at h ⊢
    simp only [beq_iff_eq] at h
    rw [hm, h]
  · rw [if_neg hm] at h ⊢
    simp only [Bool.not_eq_true', beq_eq_false_iff_ne, ne_eq] at h
    have hmod : m.natAbs % 10 ≠ 0 := by
      intro hc
      have hd : (10 : Nat) ∣ m.natAbs := by omega
      have hd2 : (10 : Int) ∣ m := dvd10_iff_natAbs.mpr hd
      exact h (Int.emod_eq_zero_of_dvd hd2)
    have hna : m.natAbs ≠ 0 := fun hc => hm (Int.natAbs_eq_zero.mp hc)
    obtain ⟨k, hk⟩ : ∃ k, m.natAbs = k + 1 := ⟨m.natAbs - 1, by omega⟩
    rw [hk] at hmod
    rw [hk, normLoop_one (k + 1) e k (by omega)]
    dsimp only
    simp only [Prod.mk.injEq]
    refine ⟨?_, trivial⟩
    rcases Int.natAbs_eq m with he | he <;> rw [hk] at he
    · have hnn : ¬ m < 0 := by omega
      rw [if_neg hnn]
      omega
    · have hlt : m < 0 := by omega
      rw [if_pos hlt]
      omega

theorem stopOK_head {r : List Char} (h : stopOK r = true) :
    ∀ c, r.head? = some c →
      c.isDigit = false ∧ c ≠ '.' ∧ c ≠ 'e' ∧ c ≠ 'E' := by
  intro c hc
  cases r with
  | nil => cases hc
  | cons a t =>
    injection hc with hc
    subst hc
    simp only [stopOK, Bool.not_eq_true', Bool.or_eq_false_iff,
      beq_eq_false_iff_ne, ne_eq] at h
    exact ⟨h.1.1.1, h.1.1.2, h.1.2, h.2⟩

theorem head_append_of_ne_nil {a b : List Char} (h : a ≠ []) :
    (a ++ b).head? = a.head? := by
  cases a with
  | nil => exact absurd rfl h
  | cons x t => rfl

theorem isDigit_ne {c : Char} (h : c.isDigit = true) :
    c ≠ '-' ∧ c ≠ '+' ∧ c ≠ '.' ∧ c ≠ 'e' ∧ c ≠ 'E' := by
  refine ⟨?_, ?_, ?_, ?_, ?_⟩ <;> (intro he; rw [he] at h; revert h; decide)

theorem isDigit_ne_starters {c : Char} (h : c.isDigit = true) :
    c ≠ '\x7b' ∧ c ≠ '[' ∧ c ≠ '"' ∧ c ≠ 't' ∧ c ≠ 'f' ∧ c ≠ 'n' := by
  refine ⟨?_, ?_, ?_, ?_, ?_, ?_⟩ <;> (intro he; rw [he] at h; revert h; decide)

theorem valueStart_of_num {c : Char} (h : c = '-' ∨ c.isDigit = true) :
    valueStart c = true := by
  rcases h with h | h
  · subst h; decide
  · simp [valueStart, h]

theorem parseFrac_none {z : List Char}
    (hz : ∀ c, z.head? = some c → c ≠ '.') : parseFrac z = ((0, 0), z) := by
  cases z with
  | nil => rfl
  | cons c t => simp [parseFrac, hz c rfl]

theorem parseExp_none {z : List Char}
    (hz : ∀ c, z.head? = some c → c ≠ 'e' ∧ c ≠ 'E') :
    parseExp z = (0, z) := by
  cases z with
  | nil => rfl
  | cons c t => simp [parseExp, (hz c rfl).1, (hz c rfl).2]

theorem parseIntPart_split {cs : List Char} {n : Nat} {rest : List Char}
    (h : parseIntPart cs = some (n, rest)) :
    ∃ mid, cs = mid ++ rest ∧ mid ≠ [] ∧ (∀ c ∈ mid, c.isDigit = true) ∧
      ∀ r', (∀ c, r'.head? = some c → c.isDigit = false) →
        parseIntPart (mid ++ r') = some (n, r') := by
  cases cs with
  | nil => cases h
  | cons c rest0 =>
    simp only [parseIntPart] at h
    by_cases h0 : c = '0'
    · rw [if_pos h0] at h
      injection h with h
      injection h with h1 h2
      subst h0; subst h1; subst h2
      refine ⟨['0'], rfl, by simp, by simp, fun r' _ => ?_⟩
      simp [parseIntPart]
    · rw [if_neg h0] at h
      by_cases hd : c.isDigit
      · rw [if_pos hd] at h
        injection h with h
        injection h with h1 h2
        refine ⟨c :: rest0.takeWhile Char.isDigit, ?_, by simp, ?_, ?_⟩
        · rw [← h2, List.cons_append, List.takeWhile_append_dropWhile]
        · intro x hx
          rcases List.mem_cons.mp hx with hx | hx
          · subst hx; exact hd
          · exact List.mem_takeWhile_imp hx
        · intro r' hr'
          have htall : ∀ x ∈ rest0.takeWhile Char.isDigit, x.isDigit = true :=
            fun x hx => List.mem_takeWhile_imp hx
          obtain ⟨htake, hdrop⟩ := takeWhile_append_of htall hr'
          simp only [List.cons_append, parseIntPart, if_neg h0, hd, if_true,
            htake, hdrop, h1]
      · rw [if_neg hd] at h
        cases h


theorem parseFrac_split {cs : List Char} {p : Nat × Nat} {rest : List Char}
    (h : parseFrac cs = (p, rest)) :
    ∃ mid, cs = mid ++ rest ∧
      (mid = [] ∨ ((∃ t, mid = '.' :: t) ∧
        ∃ d, mid.getLast? = some d ∧ d.isDigit = true)) ∧
      ∀ r', (∀ c, r'.head? = some c → c.isDigit = false ∧ c ≠ '.') →
        parseFrac (mid ++ r') = (p, r') := by
  have hnone : parseFrac cs = ((0, 0), cs) → p = (0, 0) ∧ rest = cs := by
    intro he
    rw [he] at h
    exact ⟨(Prod.mk.injEq .. ▸ h).1.symm, (Prod.mk.injEq .. ▸ h).2.symm⟩
  cases cs with
  | nil =>
    obtain ⟨hp, hr⟩ := hnone rfl
    subst hp; subst hr
    exact ⟨[], rfl, Or.inl rfl, fun r' hr' =>
      parseFrac_none fun c hc => (hr' c hc).2⟩
  | cons c rest0 =>
    by_cases hdot : c = '.'
    · subst hdot
      by_cases htw : rest0.takeWhile Char.isDigit = []
      · obtain ⟨hp, hr⟩ := hnone (by simp [parseFrac, htw])
        subst hp; subst hr
        exact ⟨[], rfl, Or.inl rfl, fun r' hr' =>
          parseFrac_none fun c hc => (hr' c hc).2⟩
      · simp only [parseFrac, if_pos rfl, if_neg htw] at h
        obtain ⟨hp, hr⟩ := Prod.mk.injEq .. ▸ h
        refine ⟨'.' :: rest0.takeWhile Char.isDigit, ?_, Or.inr ⟨⟨_, rfl⟩, ?_⟩,
          ?_⟩
        · rw [← hr, List.cons_append, List.takeWhile_append_dropWhile]
        · have : ('.' :: rest0.takeWhile Char.isDigit).getLast? =
              (rest0.takeWhile Char.isDigit).getLast? := by
            show ((['.'] ++ rest0.takeWhile Char.isDigit)).getLast? = _
            exact getLast?_append_right htw
          cases hg : (rest0.takeWhile Char.isDigit).getLast? with
          | none => exact absurd (List.getLast?_eq_none_iff.mp hg) htw
          | some d =>
            refine ⟨d, by rw [this, hg], ?_⟩
            obtain ⟨hne, he⟩ := List.mem_getLast?_eq_getLast hg
            exact List.mem_takeWhile_imp (he ▸ List.getLast_mem hne)
        · intro r' hr'
          have htall : ∀ x ∈ rest0.takeWhile Char.isDigit, x.isDigit = true :=
            fun x hx => List.mem_takeWhile_imp hx
          obtain ⟨htake, hdrop⟩ :=
            takeWhile_append_of htall fun c hc => (hr' c hc).1
          simp [List.cons_append, parseFrac, htake, htw, hdrop, ← hp]
    · obtain ⟨hp, hr⟩ := hnone (by simp [parseFrac, hdot])
      subst hp; subst hr
      exact ⟨[], rfl, Or.inl rfl, fun r' hr' =>
        parseFrac_none fun c hc => (hr' c hc).2⟩


theorem parseExp_split {cs : List Char} {v : Int} {rest : List Char}
    (h : parseExp cs = (v, rest)) :
    ∃ mid, cs = mid ++ rest ∧
      (mid = [] ∨ ((∃ c0 t, mid = c0 :: t ∧ c0.isDigit = false ∧ c0 ≠ '.') ∧
        ∃ d, mid.getLast? = some d ∧ d.isDigit = true)) ∧
      ∀ r', (∀ c, r'.head? = some c → c.isDigit = false ∧ c ≠ 'e' ∧ c ≠ 'E') →
        parseExp (mid ++ r') = (v, r') := by
  have hnone : parseExp cs = (0, cs) → v = 0 ∧ rest = cs := by
    intro he
    rw [he] at h
    exact ⟨(Prod.mk.injEq .. ▸ h).1.symm, (Prod.mk.injEq .. ▸ h).2.symm⟩
  have hmidnil : v = 0 → rest = cs →
      ∃ mid, cs = mid ++ rest ∧
        (mid = [] ∨ ((∃ c0 t, mid = c0 :: t ∧ c0.isDigit = false ∧ c0 ≠ '.') ∧
          ∃ d, mid.getLast? = some d ∧ d.isDigit = true)) ∧
        ∀ r', (∀ c, r'.head? = some c →
            c.isDigit = false ∧ c ≠ 'e' ∧ c ≠ 'E') →
          parseExp (mid ++ r') = (v, r') := by
    intro hv hr
    subst hv; subst hr
    exact ⟨[], rfl, Or.inl rfl, fun r' hr' =>
      parseExp_none fun c hc => (hr' c hc).2⟩
  cases cs with
  | nil =>
    obtain ⟨hv, hr⟩ := hnone rfl
    exact hmidnil hv hr
  | cons c rest0 =>
    by_cases hg : c = 'e' ∨ c = 'E'
    · cases rest0 with
      | nil =>
        obtain ⟨hv, hr⟩ := hnone (by simp [parseExp, hg])
        exact hmidnil hv hr
      | cons d r2 =>
        have hcd : c.isDigit = false ∧ c ≠ '.' := by
          rcases hg with hg | hg <;> subst hg <;> exact ⟨by decide, by decide⟩
        by_cases hdm : d = '-'
        · subst hdm
          by_cases htw : r2.takeWhile Char.isDigit = []
          · obtain ⟨hv, hr⟩ := hnone (by simp [parseExp, hg, htw])
            exact hmidnil hv hr
          · simp only [parseExp, if_pos hg, if_pos rfl, if_neg htw] at h
            obtain ⟨hv, hr⟩ := Prod.mk.injEq .. ▸ h
            refine ⟨c :: '-' :: r2.takeWhile Char.isDigit, ?_,
              Or.inr ⟨⟨c, _, rfl, hcd.1, hcd.2⟩, ?_⟩, ?_⟩
            · rw [← hr]
              simp only [List.cons_append, List.cons.injEq, true_and]
              rw [List.takeWhile_append_dropWhile]
            · have heq : (c :: '-' :: r2.takeWhile Char.isDigit).getLast? =
                  (r2.takeWhile Char.isDigit).getLast? := by
                show (([c, '-'] ++ r2.takeWhile Char.isDigit)).getLast? = _
                exact getLast?_append_right htw
              cases hgl : (r2.takeWhile Char.isDigit).getLast? with
              | none => exact absurd (List.getLast?_eq_none_iff.mp hgl) htw
              | some e =>
                refine ⟨e, by rw [heq, hgl], ?_⟩
                obtain ⟨hne, he⟩ := List.mem_getLast?_eq_getLast hgl
                exact List.mem_takeWhile_imp (he ▸ List.getLast_mem hne)
            · intro r' hr'
              have htall : ∀ x ∈ r2.takeWhile Char.isDigit,
                  x.isDigit = true := fun x hx => List.mem_takeWhile_imp hx
              obtain ⟨htake, hdrop⟩ :=
                takeWhile_append_of htall fun c hc => (hr' c hc).1
              simp [parseExp, hg, htake, htw, hdrop, ← hv]
        · by_cases hdp : d = '+'
          · subst hdp
            by_cases htw : r2.takeWhile Char.isDigit = []
            · obtain ⟨hv, hr⟩ := hnone (by simp [parseExp, hg, htw])
              exact hmidnil hv hr
            · simp only [parseExp, if_pos hg, if_neg (by decide : ¬('+' = '-')),
                if_pos rfl, if_neg htw] at h
              obtain ⟨hv, hr⟩ := Prod.mk.injEq .. ▸ h
              refine ⟨c :: '+' :: r2.takeWhile Char.isDigit, ?_,
                Or.inr ⟨⟨c, _, rfl, hcd.1, hcd.2⟩, ?_⟩, ?_⟩
              · rw [← hr]
                simp only [List.cons_append, List.cons.injEq, true_and]
                rw [List.takeWhile_append_dropWhile]
              · have heq : (c :: '+' :: r2.takeWhile Char.isDigit).getLast? =
                    (r2.takeWhile Char.isDigit).getLast? := by
                  show (([c, '+'] ++ r2.takeWhile Char.isDigit)).getLast? = _
                  exact getLast?_append_right htw
                cases hgl : (r2.takeWhile Char.isDigit).getLast? with
                | none => exact absurd (List.getLast?_eq_none_iff.mp hgl) htw
                | some e =>
                  refine ⟨e, by rw [heq, hgl], ?_⟩
                  obtain ⟨hne, he⟩ := List.mem_getLast?_eq_getLast hgl
                  exact List.mem_takeWhile_imp (he ▸ List.getLast_mem hne)
              · intro r' hr'
                have htall : ∀ x ∈ r2.takeWhile Char.isDigit,
                    x.isDigit = true := fun x hx => List.mem_takeWhile_imp hx
                obtain ⟨htake, hdrop⟩ :=
                  takeWhile_append_of htall fun c hc => (hr' c hc).1
                simp [parseExp, hg, htake, htw, hdrop, ← hv]
          · by_cases htw : (d :: r2).takeWhile Char.isDigit = []
            · obtain ⟨hv, hr⟩ := hnone (by simp [parseExp, hg, hdm, hdp, htw])
              exact hmidnil hv hr
            · have hdd : d.isDigit = true := by
                cases hdd : d.isDigit with
                | true => rfl
                | false =>
                  exact absurd (by simp [List.takeWhile_cons, hdd]) htw
              have htcons : (d :: r2).takeWhile Char.isDigit =
                  d :: r2.takeWhile Char.isDigit := by
                simp [List.takeWhile_cons, hdd]
              simp only [parseExp, if_pos hg, if_neg hdm, if_neg hdp,
                if_neg htw] at h
              obtain ⟨hv, hr⟩ := Prod.mk.injEq .. ▸ h
              refine ⟨c :: (d :: r2).takeWhile Char.isDigit, ?_,
                Or.inr ⟨⟨c, _, rfl, hcd.1, hcd.2⟩, ?_⟩, ?_⟩
              · rw [← hr]
                simp only [List.cons_append, List.cons.injEq, true_and]
                rw [List.takeWhile_append_dropWhile]
              · have heq : (c :: (d :: r2).takeWhile Char.isDigit).getLast? =
                    ((d :: r2).takeWhile Char.isDigit).getLast? := by
                  show (([c] ++ (d :: r2).takeWhile Char.isDigit)).getLast? = _
                  exact getLast?_append_right htw
                cases hgl : ((d :: r2).takeWhile Char.isDigit).getLast? with
                | none => exact absurd (List.getLast?_eq_none_iff.mp hgl) htw
                | some e =>
                  refine ⟨e, by rw [heq, hgl], ?_⟩
                  obtain ⟨hne, he⟩ := List.mem_getLast?_eq_getLast hgl
                  exact List.mem_takeWhile_imp (he ▸ List.getLast_mem hne)
              · intro r' hr'
                have htall2 : ∀ x ∈ r2.takeWhile Char.isDigit,
                    x.isDigit = true := fun x hx => List.mem_takeWhile_imp hx
                obtain ⟨htake2, hdrop2⟩ :=
                  takeWhile_append_of htall2 fun c hc => (hr' c hc).1
                simp [parseExp, hg, hdm, hdp, List.takeWhile_cons, hdd,
                  htake2, hdrop2, ← hv, htcons]
    · obtain ⟨hv, hr⟩ := hnone (by simp [parseExp, hg])
      exact hmidnil hv hr


theorem parseNumFrag_split {cs0 : List Char} {ip : Nat} {cs2 : List Char}
    {fp : Nat × Nat} {cs3 : List Char} {ev : Int} {rest : List Char}
    (hip : parseIntPart cs0 = some (ip, cs2))
    (hfr : parseFrac cs2 = (fp, cs3))
    (hex : parseExp cs3 = (ev, rest)) :
    ∃ mid0, cs0 = mid0 ++ rest ∧
      (∃ c t, mid0 = c :: t ∧ c.isDigit = true) ∧
      (∃ d, mid0.getLast? = some d ∧ d.isDigit = true) ∧
      ∀ r', stopOK r' = true →
        ∃ y z, parseIntPart (mid0 ++ r') = some (ip, y) ∧
          parseFrac y = (fp, z) ∧ parseExp z = (ev, r') := by
  obtain ⟨mI, hIeq, hIne, hIdig, hIport⟩ := parseIntPart_split hip
  obtain ⟨mF, hFeq, hFshape, hFport⟩ := parseFrac_split hfr
  obtain ⟨mE, hEeq, hEshape, hEport⟩ := parseExp_split hex
  refine ⟨mI ++ mF ++ mE, ?_, ?_, ?_, ?_⟩
  · rw [hIeq, hFeq, hEeq]
    simp [List.append_assoc]
  · cases mI with
    | nil => exact absurd rfl hIne
    | cons c t =>
      exact ⟨c, t ++ mF ++ mE, by simp, hIdig c (List.mem_cons_self c t)⟩
  · rcases hEshape with hEnil | ⟨_, d, hd, hdig⟩
    · subst hEnil
      rcases hFshape with hFnil | ⟨_, d, hd, hdig⟩
      · subst hFnil
        have hIe := List.getLast?_eq_getLast_of_ne_nil hIne
        exact ⟨mI.getLast hIne, by simp [hIe],
          hIdig _ (List.getLast_mem hIne)⟩
      · have hFne : mF ≠ [] := ne_nil_of_getLast? hd
        refine ⟨d, ?_, hdig⟩
        rw [List.append_nil, getLast?_append_right hFne, hd]
    · have hEne : mE ≠ [] := ne_nil_of_getLast? hd
      refine ⟨d, ?_, hdig⟩
      rw [getLast?_append_right hEne, hd]
  · intro r' hr'
    have hstop := stopOK_head hr'
    have headE : ∀ c, (mE ++ r').head? = some c →
        c.isDigit = false ∧ c ≠ '.' := by
      rcases hEshape with hEnil | ⟨⟨c0, t0, hc0, hc0d, hc0dot⟩, _⟩
      · subst hEnil
        intro c hc
        simp only [List.nil_append] at hc
        obtain ⟨h1, h2, _, _⟩ := hstop c hc
        exact ⟨h1, h2⟩
      · subst hc0
        intro c hc
        injection hc with hc
        subst hc
        exact ⟨hc0d, hc0dot⟩
    have headFE : ∀ c, (mF ++ (mE ++ r')).head? = some c →
        c.isDigit = false := by
      rcases hFshape with hFnil | ⟨⟨t, ht⟩, _⟩
      · subst hFnil
        intro c hc
        simp only [List.nil_append] at hc
        exact (headE c hc).1
      · subst ht
        intro c hc
        injection hc with hc
        subst hc
        decide
    have headR : ∀ c, r'.head? = some c →
        c.isDigit = false ∧ c ≠ 'e' ∧ c ≠ 'E' :=
      fun c hc => ⟨(hstop c hc).1, (hstop c hc).2.2.1, (hstop c hc).2.2.2⟩
    refine ⟨mF ++ (mE ++ r'), mE ++ r', ?_, hFport (mE ++ r') headE,
      hEport r' headR⟩
    have := hIport (mF ++ (mE ++ r')) headFE
    simpa [List.append_assoc] using this

theorem parseNumber_split {cs : List Char} {v : Json} {rest : List Char}
    (h : parseNumber cs = some (v, rest)) :
    ∃ mid, cs = mid ++ rest ∧
      (∃ c t, mid = c :: t ∧ (c = '-' ∨ c.isDigit = true)) ∧
      (∃ d, mid.getLast? = some d ∧ d.isDigit = true) ∧
      ∀ r', stopOK r' = true → parseNumber (mid ++ r') = some (v, r') := by
  cases cs with
  | nil => simp [parseNumber, parseIntPart] at h
  | cons c cs0 =>
    by_cases hneg : c = '-'
    · subst hneg
      simp only [parseNumber, reduceIte] at h
      cases hip : parseIntPart cs0 with
      | none => rw [hip] at h; cases h
      | some q =>
        obtain ⟨ip, cs2⟩ := q
        rw [hip] at h
        dsimp only at h
        rcases hfr : parseFrac cs2 with ⟨fp, cs3⟩
        rcases hex : parseExp cs3 with ⟨ev, rest'⟩
        rw [hfr, hex] at h
        dsimp only at h
        injection h with h
        injection h with hv hr
        obtain ⟨mid0, heq, ⟨c0, t0, hct, hc0d⟩, ⟨d, hd, hdd⟩, hport⟩ :=
          parseNumFrag_split hip hfr hex
        have hmid0ne : mid0 ≠ [] := by rw [hct]; simp
        refine ⟨'-' :: mid0, ?_, ⟨'-', mid0, rfl, Or.inl rfl⟩,
          ⟨d, ?_, hdd⟩, ?_⟩
        · rw [heq, hr]
          rfl
        · show (['-'] ++ mid0).getLast? = some d
          rw [getLast?_append_right hmid0ne, hd]
        · intro r' hr'
          obtain ⟨y, z, hipP, hfrP, hexP⟩ := hport r' hr'
          simp only [List.cons_append, parseNumber, reduceIte]
          rw [hipP]
          dsimp only
          rw [hfrP, hexP]
          dsimp only
          rw [← hv]
    · simp only [parseNumber, if_neg hneg, reduceIte] at h
      cases hip : parseIntPart (c :: cs0) with
      | none => rw [hip] at h; cases h
      | some q =>
        obtain ⟨ip, cs2⟩ := q
        rw [hip] at h
        dsimp only at h
        rcases hfr : parseFrac cs2 with ⟨fp, cs3⟩
        rcases hex : parseExp cs3 with ⟨ev, rest'⟩
        rw [hfr, hex] at h
        dsimp only at h
        injection h with h
        injection h with hv hr
        obtain ⟨mid0, heq, ⟨c0, t0, hct, hc0d⟩, ⟨d, hd, hdd⟩, hport⟩ :=
          parseNumFrag_split hip hfr hex
        refine ⟨mid0, by rw [← hr]; exact heq, ⟨c0, t0, hct, Or.inr hc0d⟩,
          ⟨d, hd, hdd⟩, ?_⟩
        intro r' hr'
        obtain ⟨y, z, hipP, hfrP, hexP⟩ := hport r' hr'
        have hc0neg : c0 ≠ '-' := (isDigit_ne hc0d).1
        rw [hct]
        simp only [List.cons_append, parseNumber, if_neg hc0neg, reduceIte]
        rw [hct] at hipP
        simp only [List.cons_append] at hipP
        rw [hipP]
        dsimp only
        rw [hfrP, hexP]
        dsimp only
        rw [← hv]


theorem parseExp_intChars {e : Int} (he : e ≠ 0) {z : List Char}
    (hz : ∀ c, z.head? = some c → c.isDigit = false) :
    parseExp ('e' :: (intChars e ++ z)) = (e, z) := by
  obtain ⟨hne, hdig, hval, h4⟩ := natChars_spec e.natAbs
  obtain ⟨htake, hdrop⟩ := takeWhile_append_of hdig hz
  by_cases hlt : e < 0
  · have hic : intChars e = '-' :: natChars e.natAbs := by
      simp [intChars, hlt]
    rw [hic]
    simp [parseExp, htake, hdrop, hval, hne]
    simp [abs_of_neg hlt]
  · have hic : intChars e = natChars e.natAbs := by
      simp [intChars, hlt]
    obtain ⟨c1, t1, hct, _⟩ := h4 (by omega)
    have hc1d : c1.isDigit = true := hdig c1 (by rw [hct]; simp)
    have hc1m : c1 ≠ '-' := (isDigit_ne hc1d).1
    have hc1p : c1 ≠ '+' := (isDigit_ne hc1d).2.1
    rw [hct] at htake hdrop hval
    rw [hic, hct]
    simp only [List.cons_append] at htake hdrop ⊢
    simp [parseExp, htake, hdrop, hval, hc1m, hc1p]
    omega

theorem parseNumber_intChars {m e : Int} (hwf : wfNum m e = true)
    {w z : List Char}
    (hw : ∀ c, w.head? = some c → c.isDigit = false ∧ c ≠ '.')
    (hex : parseExp w = (e, z)) :
    parseNumber (intChars m ++ w) = some (.num m e, z) := by
  obtain ⟨hne, hdig, hval, h4⟩ := natChars_spec m.natAbs
  have hipart : parseIntPart (natChars m.natAbs ++ w) = some (m.natAbs, w) :=
    parseIntPart_natChars _ _ fun c hc => (hw c hc).1
  have hfrw : parseFrac w = ((0, 0), w) :=
    parseFrac_none fun c hc => (hw c hc).2
  by_cases hlt : m < 0
  · have hic : intChars m = '-' :: natChars m.natAbs := by
      simp [intChars, hlt]
    rw [hic, List.cons_append]
    simp only [parseNumber, reduceIte]
    rw [hipart]
    dsimp only
    rw [hfrw]
    dsimp only
    rw [hex]
    dsimp only
    simp only [pow_zero, mul_one, Nat.add_zero, Nat.cast_zero, sub_zero]
    rw [show -((m.natAbs : Int)) = m by omega, wfNum_normNum_self hwf]
  · have hic : intChars m = natChars m.natAbs := by
      simp [intChars, hlt]
    cases hnc : natChars m.natAbs with
    | nil => exact absurd hnc hne
    | cons c1 t1 =>
      have hc1d : c1.isDigit = true := hdig c1 (by rw [hnc]; simp)
      have hc1m : c1 ≠ '-' := (isDigit_ne hc1d).1
      rw [hnc] at hipart
      rw [hic, hnc, List.cons_append]
      simp only [parseNumber, if_neg hc1m, reduceIte]
      rw [← List.cons_append, hipart]
      dsimp only
      rw [hfrw]
      dsimp only
      rw [hex]
      dsimp only
      simp only [pow_zero, mul_one, Nat.add_zero, Nat.cast_zero, sub_zero]
      rw [show ((m.natAbs : Int)) = m by omega]
      rw [if_neg (show ¬(false = true) by decide)]
      rw [wfNum_normNum_self hwf]

theorem parseNumber_dumps {m e : Int} (hwf : wfNum m e = true) {z : List Char}
    (hz : stopOK z = true) :
    parseNumber (dumpsV (.num m e) ++ z) = some (.num m e, z) := by
  have hstop := stopOK_head hz
  by_cases he : e = 0
  · subst he
    have hd : dumpsV (.num m 0) = intChars m := by simp [dumpsV]
    rw [hd]
    exact parseNumber_intChars hwf
      (fun c hc => ⟨(hstop c hc).1, (hstop c hc).2.1⟩)
      (parseExp_none fun c hc => ⟨(hstop c hc).2.2.1, (hstop c hc).2.2.2⟩)
  · have hd : dumpsV (.num m e) = intChars m ++ ('e' :: intChars e) := by
      simp [dumpsV, he]
    rw [hd, List.append_assoc, List.cons_append]
    refine parseNumber_intChars hwf ?_ ?_
    · intro c hc
      injection hc with hc
      subst hc
      exact ⟨by decide, by decide⟩
    · exact parseExp_intChars he fun c hc => (hstop c hc).1

theorem dropWhile_decomp {p : Char → Bool} {l r : List Char}
    (h : l.dropWhile p = r) :
    ∃ w, l = w ++ r ∧ ∀ c ∈ w, p c = true := by
  refine ⟨l.takeWhile p, ?_, ?_⟩
  · rw [← h, List.takeWhile_append_dropWhile]
  · intro c hc
    exact List.mem_takeWhile_imp hc

theorem dropWhile_append_not {p : Char → Bool} {w m : List Char}
    (hw : ∀ c ∈ w, p c = true)
    (hm : ∀ c, m.head? = some c → p c = false) :
    (w ++ m).dropWhile p = m := by
  rw [dropWhile_append_all hw]
  cases m with
  | nil => rfl
  | cons a t => exact dropWhile_cons_neg (hm a rfl)

theorem jsonWs_not_special {c : Char} (h : jsonWs c = true) :
    c.isDigit = false ∧ c ≠ '.' ∧ c ≠ 'e' ∧ c ≠ 'E' := by
  simp only [jsonWs, Bool.or_eq_true, beq_iff_eq] at h
  rcases h with ((h | h) | h) | h <;> subst h <;>
    exact ⟨by decide, by decide, by decide, by decide⟩

theorem stopOK_cons {c : Char} (r : List Char)
    (h : c.isDigit = false ∧ c ≠ '.' ∧ c ≠ 'e' ∧ c ≠ 'E') :
    stopOK (c :: r) = true := by
  obtain ⟨h1, h2, h3, h4⟩ := h
  simp [stopOK, h1, h2, h3, h4]

theorem stopOK_append_ws {w r : List Char}
    (hw : ∀ c ∈ w, jsonWs c = true) (hr : stopOK r = true) :
    stopOK (w ++ r) = true := by
  cases w with
  | nil => exact hr
  | cons a t =>
    exact stopOK_cons _ (jsonWs_not_special (hw a (List.mem_cons_self a t)))

theorem head_cons_prop {P : Char → Prop} {c0 : Char} (r : List Char)
    (h : P c0) : ∀ c, (c0 :: r).head? = some c → P c := by
  intro c hc
  injection hc with hc
  exact hc ▸ h

theorem parse_split :
    ∀ f : Nat,
      (∀ {cs : List Char} {v : Json} {rest : List Char},
        parseValue f cs = some (v, rest) → SplitV cs v rest) ∧
      (∀ {cs : List Char} {acc : List (List Char × Json)} {v : Json}
          {rest : List Char},
        parseMembers f cs acc = some (v, rest) → SplitM cs acc v rest) ∧
      (∀ {cs : List Char} {acc : List Json} {v : Json} {rest : List Char},
        parseElems f cs acc = some (v, rest) → SplitE cs acc v rest) := by
  intro f
  induction f with
  | zero =>
    refine ⟨?_, ?_, ?_⟩
    · intro cs v rest h
      simp [parseValue] at h
    · intro cs acc v rest h
      simp [parseMembers] at h
    · intro cs acc v rest h
      simp [parseElems] at h
  | succ f ih =>
    obtain ⟨ihV, ihM, ihE⟩ := ih
    refine ⟨?_, ?_, ?_⟩
    · intro cs v rest h
      cases cs with
      | nil => simp [parseValue] at h
      | cons c cs0 =>
        simp only [parseValue] at h
        by_cases hbrace : c = '{'
        · rw [if_pos hbrace] at h
          subst hbrace
          cases hdw : cs0.dropWhile jsonWs with
          | nil => rw [hdw] at h; cases h
          | cons c1 cs1 =>
            rw [hdw] at h
            dsimp only at h
            obtain ⟨w, hweq, hwall⟩ := dropWhile_decomp hdw
            by_cases hc1 : c1 = '}'
            · rw [if_pos hc1] at h
              subst hc1
              injection h with h
              injection h with hv hr
              subst hv
              subst hr
              refine ⟨('{' :: w) ++ ['}'], ?_, ⟨'{', w ++ ['}'], rfl, by decide⟩,
                ⟨'}', ?_, by decide⟩, ?_⟩
              · rw [hweq]
                simp
              · rw [getLast?_append_right (by simp : (['}'] : List Char) ≠ [])]
                rfl
              · intro f' r' hlen hstop
                cases f' with
                | zero => simp at hlen
                | succ g =>
                  simp only [List.cons_append, List.append_assoc,
                    List.nil_append]
                  simp only [parseValue]
                  rw [if_pos trivial]
                  rw [dropWhile_append_not hwall
                    (head_cons_prop _ (by decide : jsonWs '}' = false))]
                  dsimp only
                  rw [if_pos rfl]
            · rw [if_neg hc1] at h
              obtain ⟨midm, hMeq, ⟨tm, hmhead⟩, hmlast, hrunM⟩ := ihM h
              subst hmhead
              rw [hMeq] at hweq
              refine ⟨('{' :: w) ++ ('"' :: tm), ?_, ⟨'{', w ++ ('"' :: tm), rfl, by decide⟩,
                ⟨'}', ?_, by decide⟩, ?_⟩
              · rw [hweq]
                simp
              · rw [getLast?_append_right (by simp : ('"' :: tm) ≠ [])]
                exact hmlast
              · intro f' r' hlen hstop
                cases f' with
                | zero => simp at hlen
                | succ g =>
                  simp only [List.cons_append, List.append_assoc,
                    List.nil_append]
                  simp only [parseValue]
                  rw [if_pos trivial]
                  rw [dropWhile_append_not hwall
                    (head_cons_prop _ (by decide : jsonWs '"' = false))]
                  dsimp only
                  rw [if_neg (by decide : ¬('"' = '}'))]
                  have hm := hrunM g r'
                    (by simp only [List.length_append, List.length_cons] at hlen ⊢; omega)
                  simp only [List.cons_append, List.append_assoc] at hm
                  exact hm
        · by_cases hbrack : c = '['
          · rw [if_neg hbrace, if_pos hbrack] at h
            subst hbrack
            cases hdw : cs0.dropWhile jsonWs with
            | nil => rw [hdw] at h; cases h
            | cons c1 cs1 =>
              rw [hdw] at h
              dsimp only at h
              obtain ⟨w, hweq, hwall⟩ := dropWhile_decomp hdw
              by_cases hc1 : c1 = ']'
              · rw [if_pos hc1] at h
                subst hc1
                injection h with h
                injection h with hv hr
                subst hv
                subst hr
                refine ⟨('[' :: w) ++ [']'], ?_, ⟨'[', w ++ [']'], rfl, by decide⟩,
                  ⟨']', ?_, by decide⟩, ?_⟩
                · rw [hweq]
                  simp
                · rw [getLast?_append_right (by simp : (([']'] : List Char)) ≠ [])]
                  rfl
                · intro f' r' hlen hstop
                  cases f' with
                  | zero => simp at hlen
                  | succ g =>
                    simp only [List.cons_append, List.append_assoc,
                      List.nil_append]
                    simp only [parseValue]
                    rw [if_neg (by decide : ¬('[' = '\x7b')), if_pos trivial]
                    rw [dropWhile_append_not hwall
                      (head_cons_prop _ (by decide : jsonWs ']' = false))]
                    dsimp only
                    rw [if_pos rfl]
              · rw [if_neg hc1] at h
                obtain ⟨mide, hEeq, ⟨c2, t2, hehead, hestart⟩, helast, hrunE⟩ := ihE h
                subst hehead
                rw [hEeq] at hweq
                refine ⟨('[' :: w) ++ (c2 :: t2), ?_, ⟨'[', w ++ (c2 :: t2), rfl, by decide⟩,
                  ⟨']', ?_, by decide⟩, ?_⟩
                · rw [hweq]
                  simp
                · rw [getLast?_append_right (by simp : (c2 :: t2) ≠ [])]
                  exact helast
                · intro f' r' hlen hstop
                  cases f' with
                  | zero => simp at hlen
                  | succ g =>
                    simp only [List.cons_append, List.append_assoc,
                      List.nil_append]
                    simp only [parseValue]
                    rw [if_neg (by decide : ¬('[' = '\x7b')), if_pos trivial]
                    rw [dropWhile_append_not hwall
                      (head_cons_prop _ (not_jsonWs_of_valueStart hestart))]
                    dsimp only
                    rw [if_neg (valueStart_ne hestart).2]
                    have hm := hrunE g r'
                      (by simp only [List.length_append, List.length_cons] at hlen ⊢; omega)
                    simp only [List.cons_append, List.append_assoc] at hm
                    exact hm
          · by_cases hquote : c = '"'
            · rw [if_neg hbrace, if_neg hbrack, if_pos hquote] at h
              subst hquote
              cases hsb : parseStrBody cs0 with
              | none => rw [hsb] at h; cases h
              | some p =>
                obtain ⟨s, rest'⟩ := p
                rw [hsb] at h
                simp only [Option.map_some', Option.some.injEq] at h
                obtain ⟨hv, hr⟩ := Prod.mk.injEq .. ▸ h
                subst hv
                subst hr
                have hsb' : parseStrBodyF cs0.length cs0 = some (s, rest') := hsb
                obtain ⟨midk, hKeq, hKlast, hrunK⟩ := parseStrBodyF_split hsb'
                have hkne : midk ≠ [] := ne_nil_of_getLast? hKlast
                refine ⟨'"' :: midk, ?_, ⟨'"', midk, rfl, by decide⟩,
                  ⟨'"', ?_, by decide⟩, ?_⟩
                · rw [hKeq]
                  rfl
                · show ((['"'] ++ midk)).getLast? = some '"'
                  rw [getLast?_append_right hkne]
                  exact hKlast
                · intro f' r' hlen hstop
                  cases f' with
                  | zero => simp at hlen
                  | succ g =>
                    simp only [List.cons_append]
                    simp only [parseValue]
                    rw [if_neg (by decide : ¬('"' = '\x7b')),
                      if_neg (by decide : ¬('"' = '[')), if_pos trivial]
                    have hk : parseStrBody (midk ++ r') = some (s, r') :=
                      hrunK (midk ++ r').length r'
                        (by rw [List.length_append]; exact Nat.le_add_right _ _)
                    rw [hk]
                    rfl
            · by_cases ht : c = 't'
              · rw [if_neg hbrace, if_neg hbrack, if_neg hquote, if_pos ht] at h
                subst ht
                cases cs0 with
                | nil => cases h
                | cons c1 cs0a =>
                cases cs0a with
                | nil => cases h
                | cons c2 cs0b =>
                cases cs0b with
                | nil => cases h
                | cons c3 r =>
                dsimp only at h
                by_cases hcond : c1 = 'r' ∧ c2 = 'u' ∧ c3 = 'e'
                · rw [if_pos hcond] at h
                  obtain ⟨h1, h2, h3⟩ := hcond
                  subst h1
                  subst h2
                  subst h3
                  injection h with h
                  injection h with hv hr
                  subst hv
                  subst hr
                  refine ⟨['t', 'r', 'u', 'e'], rfl,
                    ⟨'t', _, rfl, by decide⟩, ⟨'e', rfl, by decide⟩, ?_⟩
                  intro f' r' hlen hstop
                  cases f' with
                  | zero => simp at hlen
                  | succ g => rfl
                · rw [if_neg hcond] at h
                  cases h
              · by_cases hf : c = 'f'
                · rw [if_neg hbrace, if_neg hbrack, if_neg hquote, if_neg ht,
                    if_pos hf] at h
                  subst hf
                  cases cs0 with
                  | nil => cases h
                  | cons c1 cs0a =>
                  cases cs0a with
                  | nil => cases h
                  | cons c2 cs0b =>
                  cases cs0b with
                  | nil => cases h
                  | cons c3 cs0c =>
                  cases cs0c with
                  | nil => cases h
                  | cons c4 r =>
                  dsimp only at h
                  by_cases hcond : c1 = 'a' ∧ c2 = 'l' ∧ c3 = 's' ∧ c4 = 'e'
                  · rw [if_pos hcond] at h
                    obtain ⟨h1, h2, h3, h4⟩ := hcond
                    subst h1
                    subst h2
                    subst h3
                    subst h4
                    injection h with h
                    injection h with hv hr
                    subst hv
                    subst hr
                    refine ⟨['f', 'a', 'l', 's', 'e'], rfl,
                      ⟨'f', _, rfl, by decide⟩, ⟨'e', rfl, by decide⟩, ?_⟩
                    intro f' r' hlen hstop
                    cases f' with
                    | zero => simp at hlen
                    | succ g => rfl
                  · rw [if_neg hcond] at h
                    cases h
                · by_cases hn : c = 'n'
                  · rw [if_neg hbrace, if_neg hbrack, if_neg hquote, if_neg ht,
                      if_neg hf, if_pos hn] at h
                    subst hn
                    cases cs0 with
                    | nil => cases h
                    | cons c1 cs0a =>
                    cases cs0a with
                    | nil => cases h
                    | cons c2 cs0b =>
                    cases cs0b with
                    | nil => cases h
                    | cons c3 r =>
                    dsimp only at h
                    by_cases hcond : c1 = 'u' ∧ c2 = 'l' ∧ c3 = 'l'
                    · rw [if_pos hcond] at h
                      obtain ⟨h1, h2, h3⟩ := hcond
                      subst h1
                      subst h2
                      subst h3
                      injection h with h
                      injection h with hv hr
                      subst hv
                      subst hr
                      refine ⟨['n', 'u', 'l', 'l'], rfl,
                        ⟨'n', _, rfl, by decide⟩, ⟨'l', rfl, by decide⟩, ?_⟩
                      intro f' r' hlen hstop
                      cases f' with
                      | zero => simp at hlen
                      | succ g => rfl
                    · rw [if_neg hcond] at h
                      cases h
                  · by_cases hnum : c = '-' ∨ c.isDigit = true
                    · rw [if_neg hbrace, if_neg hbrack, if_neg hquote,
                        if_neg ht, if_neg hf, if_neg hn, if_pos hnum] at h
                      obtain ⟨mid, heq, ⟨c0, t0, hhead, hnum0⟩,
                        ⟨d, hlast, hdd⟩, hrun⟩ := parseNumber_split h
                      refine ⟨mid, heq, ⟨c0, t0, hhead, valueStart_of_num hnum0⟩,
                        ⟨d, hlast, not_pySpace_of_isDigit hdd⟩, ?_⟩
                      intro f' r' hlen hstop
                      cases f' with
                      | zero => simp at hlen
                      | succ g =>
                        have hport := hrun r' hstop
                        rw [hhead] at hport ⊢
                        simp only [List.cons_append] at hport ⊢
                        rcases hnum0 with h0 | h0
                        · subst h0
                          simp only [parseValue]
                          rw [if_neg (by decide), if_neg (by decide),
                            if_neg (by decide), if_neg (by decide),
                            if_neg (by decide), if_neg (by decide),
                            if_pos (Or.inl trivial)]
                          exact hport
                        · obtain ⟨hx1, hx2, hx3, hx4, hx5, hx6⟩ :=
                            isDigit_ne_starters h0
                          simp only [parseValue]
                          rw [if_neg hx1, if_neg hx2, if_neg hx3, if_neg hx4,
                            if_neg hx5, if_neg hx6, if_pos (Or.inr h0)]
                          exact hport
                    · rw [if_neg hbrace, if_neg hbrack, if_neg hquote,
                        if_neg ht, if_neg hf, if_neg hn, if_neg hnum] at h
                      cases h
    · intro cs acc v rest h
      cases cs with
      | nil => simp [parseMembers] at h
      | cons c cs1 =>
        simp only [parseMembers] at h
        by_cases hq : c = '"'
        · rw [if_pos hq] at h
          subst hq
          cases hsb : parseStrBody cs1 with
          | none => rw [hsb] at h; cases h
          | some p =>
            obtain ⟨k, cs2⟩ := p
            rw [hsb] at h
            dsimp only at h
            cases hdw2 : cs2.dropWhile jsonWs with
            | nil => rw [hdw2] at h; cases h
            | cons c2 cs3 =>
              rw [hdw2] at h
              dsimp only at h
              by_cases hcolon : c2 = ':'
              · rw [if_pos hcolon] at h
                subst hcolon
                cases hpv : parseValue f (cs3.dropWhile jsonWs) with
                | none => rw [hpv] at h; cases h
                | some q =>
                  obtain ⟨v1, cs4⟩ := q
                  rw [hpv] at h
                  dsimp only at h
                  cases hdw4 : cs4.dropWhile jsonWs with
                  | nil => rw [hdw4] at h; cases h
                  | cons c3 cs5 =>
                    rw [hdw4] at h
                    dsimp only at h
                    have hsb' : parseStrBodyF cs1.length cs1 = some (k, cs2) :=
                      hsb
                    obtain ⟨midk, hKeq, hKlast, hrunK⟩ :=
                      parseStrBodyF_split hsb'
                    have hsbP : ∀ z, parseStrBody (midk ++ z) = some (k, z) :=
                      fun z => hrunK (midk ++ z).length z
                        (by rw [List.length_append]
                            exact Nat.le_add_right _ _)
                    obtain ⟨w2, hw2eq, hw2all⟩ := dropWhile_decomp hdw2
                    obtain ⟨midv, hVeq, ⟨c0, t0, hvhead, hvstart⟩,
                      hvlastE, hrunV⟩ := ihV hpv
                    subst hvhead
                    obtain ⟨w3, hw3eq, hw3all⟩ := dropWhile_decomp
                      (rfl : cs3.dropWhile jsonWs = cs3.dropWhile jsonWs)
                    rw [hVeq] at hw3eq
                    obtain ⟨w4, hw4eq, hw4all⟩ := dropWhile_decomp hdw4
                    by_cases hcomma : c3 = ','
                    · rw [if_pos hcomma] at h
                      subst hcomma
                      obtain ⟨midm, hMeq, ⟨tm, hmhead⟩, hmlast, hrunM⟩ := ihM h
                      subst hmhead
                      obtain ⟨w5, hw5eq, hw5all⟩ := dropWhile_decomp
                        (rfl : cs5.dropWhile jsonWs = cs5.dropWhile jsonWs)
                      rw [hMeq] at hw5eq
                      refine ⟨(('"' :: midk) ++ w2 ++ [':'] ++ w3 ++
                          (c0 :: t0) ++ w4 ++ [','] ++ w5) ++ ('"' :: tm),
                        ?_,
                        ⟨midk ++ (w2 ++ (':' :: (w3 ++ ((c0 :: t0) ++
                          (w4 ++ (',' :: (w5 ++ ('"' :: tm)))))))), by simp⟩,
                        ?_, ?_⟩
                      · rw [hKeq, hw2eq, hw3eq, hw4eq, hw5eq]
                        simp
                      · rw [getLast?_append_right
                          (by simp : ('"' :: tm) ≠ [])]
                        exact hmlast
                      · intro f' r' hlen
                        cases f' with
                        | zero => simp at hlen
                        | succ g =>
                          simp only [List.length_append, List.length_cons,
                            List.length_nil] at hlen
                          simp only [List.cons_append, List.append_assoc,
                            List.nil_append]
                          simp only [parseMembers]
                          rw [if_pos trivial]
                          rw [hsbP]
                          dsimp only
                          rw [dropWhile_append_not hw2all
                            (head_cons_prop _ (by decide : jsonWs ':' = false))]
                          dsimp only
                          rw [if_pos rfl]
                          rw [dropWhile_append_not hw3all
                            (head_cons_prop _
                              (not_jsonWs_of_valueStart hvstart))]
                          have hv' := hrunV g
                            (w4 ++ (',' :: (w5 ++ ('"' :: (tm ++ r')))))
                            (by simp only [List.length_cons]; omega)
                            (stopOK_append_ws hw4all (stopOK_cons _
                              ⟨by decide, by decide, by decide, by decide⟩))
                          simp only [List.cons_append, List.append_assoc]
                            at hv'
                          rw [hv']
                          dsimp only
                          rw [dropWhile_append_not hw4all
                            (head_cons_prop _ (by decide : jsonWs ',' = false))]
                          dsimp only
                          rw [if_pos rfl]
                          rw [dropWhile_append_not hw5all
                            (head_cons_prop _ (by decide : jsonWs '"' = false))]
                          have hm' := hrunM g r'
                            (by simp only [List.length_cons]; omega)
                          simp only [List.cons_append, List.append_assoc]
                            at hm'
                          exact hm'
                    · by_cases hclose : c3 = '}'
                      · rw [if_neg hcomma, if_pos hclose] at h
                        subst hclose
                        injection h with h
                        injection h with hv hr
                        subst hv
                        subst hr
                        refine ⟨(('"' :: midk) ++ w2 ++ [':'] ++ w3 ++
                            (c0 :: t0) ++ w4) ++ ['}'],
                          ?_,
                          ⟨midk ++ (w2 ++ (':' :: (w3 ++ ((c0 :: t0) ++
                            (w4 ++ ['}']))))), by simp⟩,
                          ?_, ?_⟩
                        · rw [hKeq, hw2eq, hw3eq, hw4eq]
                          simp
                        · rw [getLast?_append_right
                            (by simp : ((['}'] : List Char)) ≠ [])]
                          rfl
                        · intro f' r' hlen
                          cases f' with
                          | zero => simp at hlen
                          | succ g =>
                            simp only [List.length_append, List.length_cons,
                              List.length_nil] at hlen
                            simp only [List.cons_append, List.append_assoc,
                              List.nil_append]
                            simp only [parseMembers]
                            rw [if_pos trivial]
                            rw [hsbP]
                            dsimp only
                            rw [dropWhile_append_not hw2all
                              (head_cons_prop _
                                (by decide : jsonWs ':' = false))]
                            dsimp only
                            rw [if_pos rfl]
                            rw [dropWhile_append_not hw3all
                              (head_cons_prop _
                                (not_jsonWs_of_valueStart hvstart))]
                            have hv' := hrunV g (w4 ++ ('}' :: r'))
                              (by simp only [List.length_cons]; omega)
                              (stopOK_append_ws hw4all (stopOK_cons _
                                ⟨by decide, by decide, by decide, by decide⟩))
                            simp only [List.cons_append, List.append_assoc]
                              at hv'
                            rw [hv']
                            dsimp only
                            rw [dropWhile_append_not hw4all
                              (head_cons_prop _
                                (by decide : jsonWs '}' = false))]
                            dsimp only
                            rw [if_neg (by decide : ¬('}' = ',')), if_pos rfl]
                      · rw [if_neg hcomma, if_neg hclose] at h
                        cases h
              · rw [if_neg hcolon] at h
                cases h
        · rw [if_neg hq] at h
          cases h
    · intro cs acc v rest h
      simp only [parseElems] at h
      cases hpv : parseValue f cs with
      | none => rw [hpv] at h; cases h
      | some q =>
        obtain ⟨v1, cs2⟩ := q
        rw [hpv] at h
        dsimp only at h
        cases hdw : cs2.dropWhile jsonWs with
        | nil => rw [hdw] at h; cases h
        | cons c2 cs3 =>
          rw [hdw] at h
          dsimp only at h
          obtain ⟨midv, hVeq, ⟨c0, t0, hvhead, hvstart⟩, hvlastE, hrunV⟩ :=
            ihV hpv
          subst hvhead
          obtain ⟨w2, hw2eq, hw2all⟩ := dropWhile_decomp hdw
          by_cases hcomma : c2 = ','
          · rw [if_pos hcomma] at h
            subst hcomma
            obtain ⟨mide, hEeq, ⟨c1, t1, hehead, hestart⟩, helast, hrunE⟩ :=
              ihE h
            subst hehead
            obtain ⟨w3, hw3eq, hw3all⟩ := dropWhile_decomp
              (rfl : cs3.dropWhile jsonWs = cs3.dropWhile jsonWs)
            rw [hEeq] at hw3eq
            refine ⟨((c0 :: t0) ++ w2 ++ [','] ++ w3) ++ (c1 :: t1),
              ?_,
              ⟨c0, t0 ++ (w2 ++ (',' :: (w3 ++ (c1 :: t1)))),
                by simp, hvstart⟩,
              ?_, ?_⟩
            · rw [hVeq, hw2eq, hw3eq]
              simp
            · rw [getLast?_append_right (by simp : (c1 :: t1) ≠ [])]
              exact helast
            · intro f' r' hlen
              cases f' with
              | zero => simp at hlen
              | succ g =>
                simp only [List.length_append, List.length_cons,
                  List.length_nil] at hlen
                simp only [List.cons_append, List.append_assoc,
                  List.nil_append]
                simp only [parseElems]
                have hv' := hrunV g
                  (w2 ++ (',' :: (w3 ++ ((c1 :: t1) ++ r'))))
                  (by simp only [List.length_cons]; omega)
                  (stopOK_append_ws hw2all (stopOK_cons _
                    ⟨by decide, by decide, by decide, by decide⟩))
                simp only [List.cons_append, List.append_assoc] at hv'
                rw [hv']
                dsimp only
                rw [dropWhile_append_not hw2all
                  (head_cons_prop _ (by decide : jsonWs ',' = false))]
                dsimp only
                rw [if_pos rfl]
                rw [dropWhile_append_not hw3all
                  (head_cons_prop _ (not_jsonWs_of_valueStart hestart))]
                have he' := hrunE g r'
                  (by simp only [List.length_cons]; omega)
                simp only [List.cons_append, List.append_assoc] at he'
                exact he'
          · by_cases hclose : c2 = ']'
            · rw [if_neg hcomma, if_pos hclose] at h
              subst hclose
              injection h with h
              injection h with hv hr
              subst hv
              subst hr
              refine ⟨((c0 :: t0) ++ w2) ++ [']'],
                ?_,
                ⟨c0, t0 ++ (w2 ++ [']']), by simp, hvstart⟩,
                ?_, ?_⟩
              · rw [hVeq, hw2eq]
                simp
              · rw [getLast?_append_right
                  (by simp : (([']'] : List Char)) ≠ [])]
                rfl
              · intro f' r' hlen
                cases f' with
                | zero => simp at hlen
                | succ g =>
                  simp only [List.length_append, List.length_cons,
                    List.length_nil] at hlen
                  simp only [List.cons_append, List.append_assoc,
                    List.nil_append]
                  simp only [parseElems]
                  have hv' := hrunV g (w2 ++ (']' :: r'))
                    (by simp only [List.length_cons]; omega)
                    (stopOK_append_ws hw2all (stopOK_cons _
                      ⟨by decide, by decide, by decide, by decide⟩))
                  simp only [List.cons_append, List.append_assoc] at hv'
                  rw [hv']
                  dsimp only
                  rw [dropWhile_append_not hw2all
                    (head_cons_prop _ (by decide : jsonWs ']' = false))]
                  dsimp only
                  rw [if_neg (by decide : ¬(']' = ',')), if_pos rfl]
            · rw [if_neg hcomma, if_neg hclose] at h
              cases h

theorem pyStrip_loads {cs : List Char} {v : Json} (h : loads cs = some v) :
    pyStrip cs ≠ [] ∧ loads (pyStrip cs) = some v := by
  unfold loads at h
  cases hpv : parseValue (cs.length + 1) (cs.dropWhile jsonWs) with
  | none => rw [hpv] at h; cases h
  | some q =>
    obtain ⟨v0, rest⟩ := q
    rw [hpv] at h
    dsimp only at h
    by_cases hrest : rest.dropWhile jsonWs = []
    · rw [if_pos hrest] at h
      injection h with h
      subst h
      obtain ⟨mid, hmeq, ⟨c0, t0, hhead, hstart⟩, ⟨d, hlast, hps⟩, hrun⟩ :=
        (parse_split (cs.length + 1)).1 hpv
      obtain ⟨w0, hw0eq, hw0all⟩ := dropWhile_decomp
        (rfl : cs.dropWhile jsonWs = cs.dropWhile jsonWs)
      rw [hmeq] at hw0eq
      have hrestws : ∀ c ∈ rest, jsonWs c = true :=
        List.dropWhile_eq_nil_iff.mp hrest
      have hmidne : mid ≠ [] := by rw [hhead]; simp
      have hstrip : pyStrip cs = mid := by
        unfold pyStrip
        rw [hw0eq]
        rw [dropWhile_append_not
          (fun c hc => pySpace_of_jsonWs (hw0all c hc))
          (fun c hc => by
            rw [hhead, List.cons_append, List.head?_cons] at hc
            injection hc with hc
            exact hc ▸ not_pySpace_of_valueStart hstart)]
        rw [dropEndWhile_append_all
          (fun c hc => pySpace_of_jsonWs (hrestws c hc))]
        exact dropEndWhile_of_getLast hlast hps
      have hmdw : mid.dropWhile jsonWs = mid := by
        rw [hhead]
        exact dropWhile_cons_neg (not_jsonWs_of_valueStart hstart)
      have hloadsmid : loads mid = some v0 := by
        unfold loads
        rw [hmdw]
        have hp := hrun (mid.length + 1) [] (by omega) (by decide)
        rw [List.append_nil] at hp
        rw [hp]
        rfl
      rw [hstrip]
      exact ⟨hmidne, hloadsmid⟩
    · rw [if_neg hrest] at h
      cases h

theorem jsonStrParser_of_loads_obj {cs : List Char}
    {m : List (List Char × Json)} (h : loads cs = some (Json.obj m)) :
    jsonStrParser cs = some (Json.obj m) := by
  obtain ⟨hne, hl⟩ := pyStrip_loads h
  have hcsne : cs ≠ [] := by
    intro he
    subst he
    exact hne rfl
  unfold jsonStrParser
  rw [if_neg hcsne, if_neg hne, hl]


theorem parse_of_loads_obj
    (cs : List Char) (m : List (List Char × Json))
    (h : loads cs = some (Json.obj m)) :
    initParser.parse (.str cs) = Json.obj m ∧
    jsonStrParserAllOptimized (.str cs) = Json.obj m := by
  have hjp := jsonStrParser_of_loads_obj h
  obtain ⟨hne, _⟩ := pyStrip_loads h
  have hcsne : cs ≠ [] := by
    intro he
    subst he
    exact hne rfl
  constructor
  · show parseWith defaultStrategies (.str cs) = Json.obj m
    simp only [parseWith]
    rw [if_neg hcsne, if_neg hne]
    have ht : tryStrategies defaultStrategies cs = some (Json.obj m) := by
      simp only [defaultStrategies, tryStrategies, applyStrategy]
      rw [hjp]
    rw [ht]
  · simp only [jsonStrParserAllOptimized]
    rw [if_neg hcsne]
    rw [← jsonStrParser_eq_fast, hjp]

/-- C1: for every input string that is valid JSON text whose top-level value
is an object, both `JSONParserOptimized().parse` and
`json_str_parser_all_optimized` return exactly the mapping obtained by
standard JSON decoding (`json.loads`) of that string. -/
theorem c1_valid_object_decoded_exactly
    (cs : List Char) (m : List (List Char × Json))
    (h : loads cs = some (Json.obj m)) :
    initParser.parse (.str cs) = Json.obj m ∧
    jsonStrParserAllOptimized (.str cs) = Json.obj m :=
  parse_of_loads_obj cs m h

theorem c1_valid_object_decoded_exactly_witness :
    loads ['{', '"', 'a', '"', ':', '1', '}'] =
      some (Json.obj [(['a'], Json.num 1 0)]) ∧
    initParser.parse (.str ['{', '"', 'a', '"', ':', '1', '}']) =
      Json.obj [(['a'], Json.num 1 0)] ∧
    jsonStrParserAllOptimized (.str ['{', '"', 'a', '"', ':', '1', '}']) =
      Json.obj [(['a'], Json.num 1 0)] :=
  ⟨by rfl,
   (c1_valid_object_decoded_exactly _ _ (by rfl)).1,
   (c1_valid_object_decoded_exactly _ _ (by rfl)).2⟩

theorem loads_of_jsonStrParser {cs : List Char} {v : Json}
    (h : jsonStrParser cs = some v) : loads (pyStrip cs) = some v := by
  unfold jsonStrParser at h
  by_cases h1 : cs = []
  · rw [if_pos h1] at h; cases h
  · rw [if_neg h1] at h
    by_cases h2 : pyStrip cs = []
    · rw [if_pos h2] at h; cases h
    · rw [if_neg h2] at h
      cases hl : loads (pyStrip cs) with
      | none => rw [hl] at h; cases h
      | some w =>
        rw [hl] at h
        cases w with
        | null => cases h
        | bool b => injection h with h; rw [h]
        | num m e => injection h with h; rw [h]
        | str s => injection h with h; rw [h]
        | arr es => injection h with h; rw [h]
        | obj es => injection h with h; rw [h]

theorem wfArr_append_one {es : List Json} {v : Json}
    (hes : wfArr es = true) (hv : wfJson v = true) :
    wfArr (es ++ [v]) = true := by
  induction es with
  | nil => simp [wfArr, hv]
  | cons a l ih =>
    rw [wfArr] at hes
    obtain ⟨ha, hl⟩ := Bool.and_eq_true _ _ |>.mp hes
    rw [List.cons_append, wfArr, ha, ih hl]
    rfl

theorem wfObj_append_absent {k : List Char} {v : Json} :
    ∀ {es : List (List Char × Json)}, wfObj es = true → wfJson v = true →
      (∀ e ∈ es, ¬(e.1 = k)) → wfObj (es ++ [(k, v)]) = true := by
  intro es
  induction es with
  | nil =>
    intro _ hv _
    simp [wfObj, hv]
  | cons a l ih =>
    intro hes hv habs
    obtain ⟨k0, v0⟩ := a
    rw [wfObj] at hes
    obtain ⟨h1, h3⟩ := Bool.and_eq_true _ _ |>.mp hes
    obtain ⟨h1, h2⟩ := Bool.and_eq_true _ _ |>.mp h1
    rw [List.cons_append, wfObj]
    refine Bool.and_eq_true _ _ |>.mpr ⟨Bool.and_eq_true _ _ |>.mpr ⟨h1, ?_⟩,
      ih h3 hv fun e he => habs e (List.mem_cons_of_mem _ he)⟩
    rw [List.all_append]
    refine Bool.and_eq_true _ _ |>.mpr ⟨h2, ?_⟩
    have hk0 : ¬(k0 = k) := habs (k0, v0) (List.mem_cons_self _ _)
    simp only [List.all_cons, List.all_nil, Bool.and_true]
    simp only [Bool.not_eq_true', beq_eq_false_iff_ne, ne_eq]
    intro he
    exact hk0 he.symm

theorem wfObj_map_update {k : List Char} {v : Json} (hv : wfJson v = true) :
    ∀ {es : List (List Char × Json)}, wfObj es = true →
      wfObj (es.map fun kv => if kv.1 = k then (k, v) else kv) = true := by
  have hkey : ∀ kv : List Char × Json,
      (if kv.1 = k then (k, v) else kv).1 = kv.1 := by
    intro kv
    split
    · next hh => exact hh.symm
    · rfl
  intro es
  induction es with
  | nil => intro _; simp [wfObj]
  | cons a l ih =>
    intro hes
    obtain ⟨k0, v0⟩ := a
    rw [wfObj] at hes
    obtain ⟨h1, h3⟩ := Bool.and_eq_true _ _ |>.mp hes
    obtain ⟨h1, h2⟩ := Bool.and_eq_true _ _ |>.mp h1
    rw [List.map_cons, wfObj]
    have hhead : (if (k0, v0).1 = k then (k, v) else (k0, v0)).1 = k0 :=
      hkey (k0, v0)
    refine Bool.and_eq_true _ _ |>.mpr ⟨Bool.and_eq_true _ _ |>.mpr ⟨?_, ?_⟩,
      ih h3⟩
    · by_cases hc : (k0, v0).1 = k
      · rw [if_pos hc]
        exact hv
      · rw [if_neg hc]
        exact h1
    · rw [List.all_map]
      rw [List.all_eq_true] at h2 ⊢
      intro kv hkv
      have := h2 kv hkv
      simp only [Function.comp_apply, hkey kv, hhead]
      simpa [hhead] using this

theorem wfObj_insertEntry {es : List (List Char × Json)} {k : List Char}
    {v : Json} (hes : wfObj es = true) (hv : wfJson v = true) :
    wfObj (insertEntry es k v) = true := by
  unfold insertEntry
  by_cases hany : es.any fun kv => kv.1 = k
  · rw [if_pos hany]
    exact wfObj_map_update hv hes
  · rw [if_neg hany]
    refine wfObj_append_absent hes hv fun e he hek => ?_
    exact hany (List.any_eq_true.mpr ⟨e, he, by simpa using hek⟩)

theorem parseNumber_wf {cs : List Char} {v : Json} {rest : List Char}
    (h : parseNumber cs = some (v, rest)) : wfJson v = true := by
  unfold parseNumber at h
  dsimp only at h
  cases hip : parseIntPart (match cs with
      | [] => ((false : Bool), ([] : List Char))
      | c :: r => if c = '-' then (true, r) else (false, c :: r)).2 with
  | none => rw [hip] at h; cases h
  | some q =>
    obtain ⟨ip, cs2⟩ := q
    rw [hip] at h
    dsimp only at h
    injection h with h
    injection h with hv hr
    rw [← hv]
    show wfNum (normNum _ _).1 (normNum _ _).2 = true
    exact wfNum_normNum _ _


theorem parse_wf :
    ∀ f : Nat,
      (∀ {cs : List Char} {v : Json} {rest : List Char},
        parseValue f cs = some (v, rest) → wfJson v = true) ∧
      (∀ {cs : List Char} {acc : List (List Char × Json)} {v : Json}
          {rest : List Char}, wfObj acc = true →
        parseMembers f cs acc = some (v, rest) → wfJson v = true) ∧
      (∀ {cs : List Char} {acc : List Json} {v : Json} {rest : List Char},
        wfArr acc = true →
        parseElems f cs acc = some (v, rest) → wfJson v = true) := by
  intro f
  induction f with
  | zero =>
    refine ⟨?_, ?_, ?_⟩
    · intro cs v rest h
      simp [parseValue] at h
    · intro cs acc v rest _ h
      simp [parseMembers] at h
    · intro cs acc v rest _ h
      simp [parseElems] at h
  | succ f ih =>
    obtain ⟨ihV, ihM, ihE⟩ := ih
    refine ⟨?_, ?_, ?_⟩
    · intro cs v rest h
      cases cs with
      | nil => simp [parseValue] at h
      | cons c cs0 =>
        simp only [parseValue] at h
        by_cases hbrace : c = '{'
        · rw [if_pos hbrace] at h
          cases hdw : cs0.dropWhile jsonWs with
          | nil => rw [hdw] at h; cases h
          | cons c1 cs1 =>
            rw [hdw] at h
            dsimp only at h
            by_cases hc1 : c1 = '}'
            · rw [if_pos hc1] at h
              injection h with h
              injection h with hv hr
              rw [← hv]
              rfl
            · rw [if_neg hc1] at h
              exact ihM (show wfObj [] = true from rfl) h
        · by_cases hbrack : c = '['
          · rw [if_neg hbrace, if_pos hbrack] at h
            cases hdw : cs0.dropWhile jsonWs with
            | nil => rw [hdw] at h; cases h
            | cons c1 cs1 =>
              rw [hdw] at h
              dsimp only at h
              by_cases hc1 : c1 = ']'
              · rw [if_pos hc1] at h
                injection h with h
                injection h with hv hr
                rw [← hv]
                rfl
              · rw [if_neg hc1] at h
                exact ihE (show wfArr [] = true from rfl) h
          · by_cases hquote : c = '"'
            · rw [if_neg hbrace, if_neg hbrack, if_pos hquote] at h
              cases hsb : parseStrBody cs0 with
              | none => rw [hsb] at h; cases h
              | some p =>
                rw [hsb] at h
                simp only [Option.map_some', Option.some.injEq] at h
                obtain ⟨hv, hr⟩ := Prod.mk.injEq .. ▸ h
                rw [← hv]
                rfl
            · by_cases ht : c = 't'
              · rw [if_neg hbrace, if_neg hbrack, if_neg hquote,
                  if_pos ht] at h
                cases cs0 with
                | nil => cases h
                | cons c1 cs0a =>
                cases cs0a with
                | nil => cases h
                | cons c2 cs0b =>
                cases cs0b with
                | nil => cases h
                | cons c3 r =>
                dsimp only at h
                by_cases hcond : c1 = 'r' ∧ c2 = 'u' ∧ c3 = 'e'
                · rw [if_pos hcond] at h
                  injection h with h
                  injection h with hv hr
                  rw [← hv]
                  rfl
                · rw [if_neg hcond] at h
                  cases h
              · by_cases hf : c = 'f'
                · rw [if_neg hbrace, if_neg hbrack, if_neg hquote, if_neg ht,
                    if_pos hf] at h
                  cases cs0 with
                  | nil => cases h
                  | cons c1 cs0a =>
                  cases cs0a with
                  | nil => cases h
                  | cons c2 cs0b =>
                  cases cs0b with
                  | nil => cases h
                  | cons c3 cs0c =>
                  cases cs0c with
                  | nil => cases h
                  | cons c4 r =>
                  dsimp only at h
                  by_cases hcond : c1 = 'a' ∧ c2 = 'l' ∧ c3 = 's' ∧ c4 = 'e'
                  · rw [if_pos hcond] at h
                    injection h with h
                    injection h with hv hr
                    rw [← hv]
                    rfl
                  · rw [if_neg hcond] at h
                    cases h
                · by_cases hn : c = 'n'
                  · rw [if_neg hbrace, if_neg hbrack, if_neg hquote,
                      if_neg ht, if_neg hf, if_pos hn] at h
                    cases cs0 with
                    | nil => cases h
                    | cons c1 cs0a =>
                    cases cs0a with
                    | nil => cases h
                    | cons c2 cs0b =>
                    cases cs0b with
                    | nil => cases h
                    | cons c3 r =>
                    dsimp only at h
                    by_cases hcond : c1 = 'u' ∧ c2 = 'l' ∧ c3 = 'l'
                    · rw [if_pos hcond] at h
                      injection h with h
                      injection h with hv hr
                      rw [← hv]
                      rfl
                    · rw [if_neg hcond] at h
                      cases h
                  · by_cases hnum : c = '-' ∨ c.isDigit = true
                    · rw [if_neg hbrace, if_neg hbrack, if_neg hquote,
                        if_neg ht, if_neg hf, if_neg hn, if_pos hnum] at h
                      exact parseNumber_wf h
                    · rw [if_neg hbrace, if_neg hbrack, if_neg hquote,
                        if_neg ht, if_neg hf, if_neg hn, if_neg hnum] at h
                      cases h
    · intro cs acc v rest hacc h
      cases cs with
      | nil => simp [parseMembers] at h
      | cons c cs1 =>
        simp only [parseMembers] at h
        by_cases hq : c = '"'
        · rw [if_pos hq] at h
          cases hsb : parseStrBody cs1 with
          | none => rw [hsb] at h; cases h
          | some p =>
            obtain ⟨k, cs2⟩ := p
            rw [hsb] at h
            dsimp only at h
            cases hdw2 : cs2.dropWhile jsonWs with
            | nil => rw [hdw2] at h; cases h
            | cons c2 cs3 =>
              rw [hdw2] at h
              dsimp only at h
              by_cases hcolon : c2 = ':'
              · rw [if_pos hcolon] at h
                cases hpv : parseValue f (cs3.dropWhile jsonWs) with
                | none => rw [hpv] at h; cases h
                | some q =>
                  obtain ⟨v1, cs4⟩ := q
                  rw [hpv] at h
                  dsimp only at h
                  cases hdw4 : cs4.dropWhile jsonWs with
                  | nil => rw [hdw4] at h; cases h
                  | cons c3 cs5 =>
                    rw [hdw4] at h
                    dsimp only at h
                    by_cases hcomma : c3 = ','
                    · rw [if_pos hcomma] at h
                      exact ihM (wfObj_insertEntry hacc (ihV hpv)) h
                    · by_cases hclose : c3 = '}'
                      · rw [if_neg hcomma, if_pos hclose] at h
                        injection h with h
                        injection h with hv hr
                        rw [← hv]
                        exact wfObj_insertEntry hacc (ihV hpv)
                      · rw [if_neg hcomma, if_neg hclose] at h
                        cases h
              · rw [if_neg hcolon] at h
                cases h
        · rw [if_neg hq] at h
          cases h
    · intro cs acc v rest hacc h
      simp only [parseElems] at h
      cases hpv : parseValue f cs with
      | none => rw [hpv] at h; cases h
      | some q =>
        obtain ⟨v1, cs2⟩ := q
        rw [hpv] at h
        dsimp only at h
        cases hdw : cs2.dropWhile jsonWs with
        | nil => rw [hdw] at h; cases h
        | cons c2 cs3 =>
          rw [hdw] at h
          dsimp only at h
          by_cases hcomma : c2 = ','
          · rw [if_pos hcomma] at h
            exact ihE (wfArr_append_one hacc (ihV hpv)) h
          · by_cases hclose : c2 = ']'
            · rw [if_neg hcomma, if_pos hclose] at h
              injection h with h
              injection h with hv hr
              rw [← hv]
              exact wfArr_append_one hacc (ihV hpv)
            · rw [if_neg hcomma, if_neg hclose] at h
              cases h

theorem loads_wf {cs : List Char} {v : Json} (h : loads cs = some v) :
    wfJson v = true := by
  unfold loads at h
  cases hpv : parseValue (cs.length + 1) (cs.dropWhile jsonWs) with
  | none => rw [hpv] at h; cases h
  | some q =>
    obtain ⟨v0, rest⟩ := q
    rw [hpv] at h
    dsimp only at h
    by_cases hrest : rest.dropWhile jsonWs = []
    · rw [if_pos hrest] at h
      injection h with h
      rw [← h]
      exact (parse_wf (cs.length + 1)).1 hpv
    · rw [if_neg hrest] at h
      cases h


theorem dumpsV_num_head (m e : Int) :
    ∃ c t, dumpsV (.num m e) = c :: t ∧ (c = '-' ∨ c.isDigit = true) := by
  by_cases hm : m < 0
  · refine ⟨'-', natChars m.natAbs ++
      (if e = 0 then [] else 'e' :: intChars e), ?_, Or.inl rfl⟩
    simp [dumpsV, intChars, hm]
  · obtain ⟨hne, hdig, _, _⟩ := natChars_spec m.natAbs
    cases hnc : natChars m.natAbs with
    | nil => exact absurd hnc hne
    | cons c t =>
      refine ⟨c, t ++ (if e = 0 then [] else 'e' :: intChars e), ?_,
        Or.inr (hdig c (by rw [hnc]; simp))⟩
      simp [dumpsV, intChars, hm, hnc]

theorem dumpsV_head (v : Json) :
    ∃ c t, dumpsV v = c :: t ∧ valueStart c = true := by
  cases v with
  | null => exact ⟨'n', _, rfl, by decide⟩
  | bool b =>
    cases b with
    | false => exact ⟨'f', _, rfl, by decide⟩
    | true => exact ⟨'t', _, rfl, by decide⟩
  | num m e =>
    obtain ⟨c, t, hct, hc⟩ := dumpsV_num_head m e
    exact ⟨c, t, hct, valueStart_of_num hc⟩
  | str s => exact ⟨'"', _, rfl, by decide⟩
  | arr es => exact ⟨'[', _, rfl, by decide⟩
  | obj es => exact ⟨'\x7b', _, rfl, by decide⟩

theorem insertEntry_absent {es : List (List Char × Json)} {k : List Char}
    {v : Json} (h : ∀ e ∈ es, ¬(e.1 = k)) :
    insertEntry es k v = es ++ [(k, v)] := by
  unfold insertEntry
  have hna : ¬((es.any fun kv => kv.1 = k) = true) := by
    intro hc
    rw [List.any_eq_true] at hc
    obtain ⟨kv, hkv, he⟩ := hc
    exact h kv hkv (by simpa using he)
  rw [if_neg hna]

theorem foldl_insertEntry_absent :
    ∀ (kvs acc : List (List Char × Json)), wfObj kvs = true →
      (∀ kv ∈ kvs, ∀ e ∈ acc, ¬(e.1 = kv.1)) →
      kvs.foldl (fun a kv => insertEntry a kv.1 kv.2) acc = acc ++ kvs := by
  intro kvs
  induction kvs with
  | nil =>
    intro acc _ _
    simp
  | cons a l ih =>
    intro acc hwf habs
    obtain ⟨k, v⟩ := a
    rw [List.foldl_cons]
    dsimp only
    rw [insertEntry_absent
      (fun e he => habs (k, v) (List.mem_cons_self _ _) e he)]
    rw [wfObj] at hwf
    obtain ⟨h1, h3⟩ := Bool.and_eq_true _ _ |>.mp hwf
    obtain ⟨_, h2⟩ := Bool.and_eq_true _ _ |>.mp h1
    have habs' : ∀ kv ∈ l, ∀ e ∈ acc ++ [(k, v)], ¬(e.1 = kv.1) := by
      intro kv hkv e he
      rcases List.mem_append.mp he with he | he
      · exact habs kv (List.mem_cons_of_mem _ hkv) e he
      · rw [List.mem_singleton.mp he]
        rw [List.all_eq_true] at h2
        have hth := h2 kv hkv
        simp only [Bool.not_eq_true', beq_eq_false_iff_ne, ne_eq] at hth
        intro hek
        exact hth hek.symm
    rw [ih (acc ++ [(k, v)]) h3 habs']
    simp

theorem foldl_insertEntry_self {kvs : List (List Char × Json)}
    (h : wfObj kvs = true) :
    kvs.foldl (fun a kv => insertEntry a kv.1 kv.2) [] = kvs := by
  have hth := foldl_insertEntry_absent kvs [] h (by intro kv _ e he; cases he)
  simpa using hth


theorem dumpsArr_head {es : List Json} (h : es ≠ []) :
    ∃ c t, dumpsArr es = c :: t ∧ valueStart c = true := by
  cases es with
  | nil => exact absurd rfl h
  | cons v1 tl =>
    obtain ⟨c, t, hct, hc⟩ := dumpsV_head v1
    cases tl with
    | nil => exact ⟨c, t, hct, hc⟩
    | cons v2 tl2 =>
      refine ⟨c, t ++ ',' :: dumpsArr (v2 :: tl2), ?_, hc⟩
      show dumpsV v1 ++ ',' :: dumpsArr (v2 :: tl2) = _
      rw [hct, List.cons_append]

theorem dumpsObj_head {kvs : List (List Char × Json)} (h : kvs ≠ []) :
    ∃ t, dumpsObj kvs = '"' :: t := by
  cases kvs with
  | nil => exact absurd rfl h
  | cons a tl =>
    obtain ⟨k, v⟩ := a
    cases tl with
    | nil => exact ⟨_, rfl⟩
    | cons b tl2 => exact ⟨_, rfl⟩



theorem rt_all :
    ∀ n : Nat,
      (∀ v : Json, 2 * (dumpsV v).length ≤ n → wfJson v = true →
        ∀ f r, (dumpsV v).length < f → stopOK r = true →
          parseValue f (dumpsV v ++ r) = some (v, r)) ∧
      (∀ (es : List Json) (acc : List Json),
        2 * (dumpsArr es).length + 1 ≤ n → wfArr es = true → es ≠ [] →
        ∀ f r, (dumpsArr es).length + 1 < f →
          parseElems f (dumpsArr es ++ (']' :: r)) acc =
            some (.arr (acc ++ es), r)) ∧
      (∀ (kvs : List (List Char × Json)) (acc : List (List Char × Json)),
        2 * (dumpsObj kvs).length + 1 ≤ n → wfObj kvs = true → kvs ≠ [] →
        ∀ f r, (dumpsObj kvs).length + 1 < f →
          parseMembers f (dumpsObj kvs ++ ('}' :: r)) acc =
            some (.obj (kvs.foldl (fun a kv => insertEntry a kv.1 kv.2) acc),
              r)) := by
  intro n
  induction n using Nat.strong_induction_on with
  | h n ih =>
    refine ⟨?_, ?_, ?_⟩
    · intro v hn hwf f r hf hstop
      cases v with
      | null =>
        cases f with
        | zero => omega
        | succ g => rfl
      | bool b =>
        cases b with
        | false =>
          cases f with
          | zero => omega
          | succ g => rfl
        | true =>
          cases f with
          | zero => omega
          | succ g => rfl
      | num m e =>
        obtain ⟨c, t, hct, hc⟩ := dumpsV_num_head m e
        cases f with
        | zero => omega
        | succ g =>
          have hnd := parseNumber_dumps (show wfNum m e = true from hwf) hstop
          rw [hct] at hnd ⊢
          simp only [List.cons_append] at hnd ⊢
          simp only [parseValue]
          rcases hc with h0 | h0
          · subst h0
            rw [if_neg (by decide), if_neg (by decide), if_neg (by decide),
              if_neg (by decide), if_neg (by decide), if_neg (by decide),
              if_pos (Or.inl rfl)]
            exact hnd
          · obtain ⟨hx1, hx2, hx3, hx4, hx5, hx6⟩ := isDigit_ne_starters h0
            rw [if_neg hx1, if_neg hx2, if_neg hx3, if_neg hx4, if_neg hx5,
              if_neg hx6, if_pos (Or.inr h0)]
            exact hnd
      | str s =>
        cases f with
        | zero => omega
        | succ g =>
          show parseValue (g + 1) (('"' :: (escapeStr s ++ ['"'])) ++ r) =
            some (.str s, r)
          simp only [List.cons_append, List.append_assoc, List.nil_append]
          simp only [parseValue]
          rw [if_neg (by decide : ¬('"' = '\x7b')),
            if_neg (by decide : ¬('"' = '[')), if_pos trivial]
          have hk : parseStrBody (escapeStr s ++ '"' :: r) = some (s, r) :=
            parseStrBodyF_escape s r (escapeStr s ++ '"' :: r).length
              (by rw [List.length_append, List.length_cons]; omega)
          rw [hk]
          rfl
      | arr es =>
        have hlen2 : (dumpsV (Json.arr es)).length =
            (dumpsArr es).length + 2 := by
          show ('[' :: (dumpsArr es ++ [']'])).length = _
          simp
        cases f with
        | zero => omega
        | succ g =>
          show parseValue (g + 1) (('[' :: (dumpsArr es ++ [']'])) ++ r) =
            some (.arr es, r)
          simp only [List.cons_append, List.append_assoc, List.nil_append]
          simp only [parseValue]
          rw [if_neg (by decide : ¬('[' = '\x7b')), if_pos trivial]
          cases es with
          | nil =>
            rw [show dumpsArr ([] : List Json) = [] from rfl]
            simp only [List.nil_append]
            rw [dropWhile_cons_neg (by decide : jsonWs ']' = false)]
            dsimp only
            rw [if_pos rfl]
          | cons v1 tl =>
            obtain ⟨c, t, hct, hc⟩ := dumpsArr_head (List.cons_ne_nil v1 tl)
            rw [hct, List.cons_append]
            rw [dropWhile_cons_neg (not_jsonWs_of_valueStart hc)]
            dsimp only
            rw [if_neg (valueStart_ne hc).2]
            have he' := (ih (2 * (dumpsArr (v1 :: tl)).length + 1)
                (by omega)).2.1 (v1 :: tl) [] (le_refl _)
              (show wfArr (v1 :: tl) = true from hwf)
              (List.cons_ne_nil v1 tl) g r (by omega)
            rw [hct] at he'
            simp only [List.cons_append, List.nil_append] at he' ⊢
            exact he'
      | obj kvs =>
        have hlen2 : (dumpsV (Json.obj kvs)).length =
            (dumpsObj kvs).length + 2 := by
          show ('\x7b' :: (dumpsObj kvs ++ ['}'])).length = _
          simp
        cases f with
        | zero => omega
        | succ g =>
          show parseValue (g + 1) (('\x7b' :: (dumpsObj kvs ++ ['}'])) ++ r) =
            some (.obj kvs, r)
          simp only [List.cons_append, List.append_assoc, List.nil_append]
          simp only [parseValue]
          rw [if_pos trivial]
          cases kvs with
          | nil =>
            rw [show dumpsObj ([] : List (List Char × Json)) = [] from rfl]
            simp only [List.nil_append]
            rw [dropWhile_cons_neg (by decide : jsonWs '}' = false)]
            dsimp only
            rw [if_pos rfl]
          | cons kv tl =>
            obtain ⟨t, hct⟩ := dumpsObj_head (List.cons_ne_nil kv tl)
            rw [hct, List.cons_append]
            rw [dropWhile_cons_neg (by decide : jsonWs '"' = false)]
            dsimp only
            rw [if_neg (by decide : ¬('"' = '}'))]
            have hm' := (ih (2 * (dumpsObj (kv :: tl)).length + 1)
                (by omega)).2.2 (kv :: tl) [] (le_refl _)
              (show wfObj (kv :: tl) = true from hwf)
              (List.cons_ne_nil kv tl) g r (by omega)
            rw [foldl_insertEntry_self
              (show wfObj (kv :: tl) = true from hwf)] at hm'
            rw [hct] at hm'
            simp only [List.cons_append] at hm' ⊢
            exact hm'
    · intro es acc hn hwf hne f r hf
      cases es with
      | nil => exact absurd rfl hne
      | cons v1 tl =>
        obtain ⟨hwf1, hwft⟩ := Bool.and_eq_true _ _ |>.mp
          (show (wfJson v1 && wfArr tl) = true from hwf)
        cases tl with
        | nil =>
          have hda : dumpsArr [v1] = dumpsV v1 := rfl
          cases f with
          | zero => omega
          | succ g =>
            rw [hda] at hn hf ⊢
            simp only [parseElems]
            have hv' := (ih (2 * (dumpsV v1).length) (by omega)).1 v1
              (le_refl _) hwf1 g (']' :: r) (by omega)
              (stopOK_cons _ ⟨by decide, by decide, by decide, by decide⟩)
            rw [hv']
            dsimp only
            rw [dropWhile_cons_neg (by decide : jsonWs ']' = false)]
            dsimp only
            rw [if_neg (by decide : ¬(']' = ',')), if_pos rfl]
        | cons v2 tl2 =>
          have hda : dumpsArr (v1 :: v2 :: tl2) =
              dumpsV v1 ++ ',' :: dumpsArr (v2 :: tl2) := rfl
          have hlen3 : (dumpsArr (v1 :: v2 :: tl2)).length =
              (dumpsV v1).length + 1 + (dumpsArr (v2 :: tl2)).length := by
            rw [hda]
            simp
            omega
          cases f with
          | zero => omega
          | succ g =>
            rw [hda]
            simp only [List.cons_append, List.append_assoc]
            simp only [parseElems]
            have hv' := (ih (2 * (dumpsV v1).length) (by omega)).1 v1
              (le_refl _) hwf1 g
              (',' :: (dumpsArr (v2 :: tl2) ++ (']' :: r))) (by omega)
              (stopOK_cons _ ⟨by decide, by decide, by decide, by decide⟩)
            rw [hv']
            dsimp only
            rw [dropWhile_cons_neg (by decide : jsonWs ',' = false)]
            dsimp only
            rw [if_pos rfl]
            obtain ⟨c, t, hct, hc⟩ := dumpsArr_head (List.cons_ne_nil v2 tl2)
            rw [hct, List.cons_append]
            rw [dropWhile_cons_neg (not_jsonWs_of_valueStart hc)]
            have he' := (ih (2 * (dumpsArr (v2 :: tl2)).length + 1)
                (by omega)).2.1 (v2 :: tl2) (acc ++ [v1]) (le_refl _) hwft
              (List.cons_ne_nil v2 tl2) g r (by omega)
            rw [hct] at he'
            simp only [List.cons_append, List.append_assoc,
              List.nil_append] at he' ⊢
            exact he'
    · intro kvs acc hn hwf hne f r hf
      cases kvs with
      | nil => exact absurd rfl hne
      | cons kv tl =>
        obtain ⟨k, v⟩ := kv
        have hwf' :
            ((wfJson v && tl.all fun e => !(e.1 == k)) && wfObj tl) = true :=
          hwf
        obtain ⟨h1, hwftl⟩ := Bool.and_eq_true _ _ |>.mp hwf'
        obtain ⟨hwfv, _⟩ := Bool.and_eq_true _ _ |>.mp h1
        cases tl with
        | nil =>
          have hdo : dumpsObj [(k, v)] =
              '"' :: (escapeStr k ++ '"' :: ':' :: dumpsV v) := rfl
          have hlen3 : (dumpsObj [(k, v)]).length =
              (escapeStr k).length + (dumpsV v).length + 3 := by
            rw [hdo]
            simp
            omega
          cases f with
          | zero => omega
          | succ g =>
            rw [hdo]
            simp only [List.cons_append, List.append_assoc]
            simp only [parseMembers]
            rw [if_pos trivial]
            have hk : parseStrBody
                (escapeStr k ++ '"' :: (':' :: (dumpsV v ++ ('}' :: r)))) =
                some (k, ':' :: (dumpsV v ++ ('}' :: r))) :=
              parseStrBodyF_escape k _
                (escapeStr k ++ '"' :: (':' :: (dumpsV v ++ ('}' :: r)))).length
                (by rw [List.length_append, List.length_cons]; omega)
            rw [hk]
            dsimp only
            rw [dropWhile_cons_neg (by decide : jsonWs ':' = false)]
            dsimp only
            rw [if_pos rfl]
            obtain ⟨c, t, hct, hc⟩ := dumpsV_head v
            rw [hct, List.cons_append]
            rw [dropWhile_cons_neg (not_jsonWs_of_valueStart hc)]
            have hv' := (ih (2 * (dumpsV v).length) (by omega)).1 v
              (le_refl _) hwfv g ('}' :: r) (by omega)
              (stopOK_cons _ ⟨by decide, by decide, by decide, by decide⟩)
            rw [hct] at hv'
            simp only [List.cons_append] at hv'
            rw [hv']
            dsimp only
            rw [dropWhile_cons_neg (by decide : jsonWs '}' = false)]
            dsimp only
            rw [if_neg (by decide : ¬('}' = ',')), if_pos rfl]
            rfl
        | cons kv2 tl2 =>
          have hdo : dumpsObj ((k, v) :: kv2 :: tl2) =
              ('"' :: (escapeStr k ++ '"' :: ':' :: dumpsV v)) ++
                ',' :: dumpsObj (kv2 :: tl2) := rfl
          have hlen3 : (dumpsObj ((k, v) :: kv2 :: tl2)).length =
              (escapeStr k).length + (dumpsV v).length + 4 +
                (dumpsObj (kv2 :: tl2)).length := by
            rw [hdo]
            simp
            omega
          cases f with
          | zero => omega
          | succ g =>
            rw [hdo]
            simp only [List.cons_append, List.append_assoc]
            simp only [parseMembers]
            rw [if_pos trivial]
            have hk : parseStrBody
                (escapeStr k ++ '"' :: (':' :: (dumpsV v ++
                  (',' :: (dumpsObj (kv2 :: tl2) ++ ('}' :: r)))))) =
                some (k, ':' :: (dumpsV v ++
                  (',' :: (dumpsObj (kv2 :: tl2) ++ ('}' :: r))))) :=
              parseStrBodyF_escape k _
                (escapeStr k ++ '"' :: (':' :: (dumpsV v ++
                  (',' :: (dumpsObj (kv2 :: tl2) ++ ('}' :: r)))))).length
                (by rw [List.length_append, List.length_cons]; omega)
            rw [hk]
            dsimp only
            rw [dropWhile_cons_neg (by decide : jsonWs ':' = false)]
            dsimp only
            rw [if_pos rfl]
            obtain ⟨c, t, hct, hc⟩ := dumpsV_head v
            rw [hct, List.cons_append]
            rw [dropWhile_cons_neg (not_jsonWs_of_valueStart hc)]
            have hv' := (ih (2 * (dumpsV v).length) (by omega)).1 v
              (le_refl _) hwfv g
              (',' :: (dumpsObj (kv2 :: tl2) ++ ('}' :: r))) (by omega)
              (stopOK_cons _ ⟨by decide, by decide, by decide, by decide⟩)
            rw [hct] at hv'
            simp only [List.cons_append] at hv'
            rw [hv']
            dsimp only
            rw [dropWhile_cons_neg (by decide : jsonWs ',' = false)]
            dsimp only
            rw [if_pos rfl]
            obtain ⟨t2, hct2⟩ := dumpsObj_head (List.cons_ne_nil kv2 tl2)
            rw [hct2, List.cons_append]
            rw [dropWhile_cons_neg (by decide : jsonWs '"' = false)]
            have hm' := (ih (2 * (dumpsObj (kv2 :: tl2)).length + 1)
                (by omega)).2.2 (kv2 :: tl2) (insertEntry acc k v)
              (le_refl _) hwftl (List.cons_ne_nil kv2 tl2) g r (by omega)
            rw [hct2] at hm'
            simp only [List.cons_append] at hm' ⊢
            exact hm'


theorem rt_loads {v : Json} (hwf : wfJson v = true) :
    loads (dumpsV v) = some v := by
  unfold loads
  obtain ⟨c, t, hct, hc⟩ := dumpsV_head v
  have hdw : (dumpsV v).dropWhile jsonWs = dumpsV v := by
    rw [hct]
    exact dropWhile_cons_neg (not_jsonWs_of_valueStart hc)
  rw [hdw]
  have hv' := (rt_all (2 * (dumpsV v).length)).1 v (le_refl _) hwf
    ((dumpsV v).length + 1) [] (by omega) (by decide)
  rw [List.append_nil] at hv'
  rw [hv']
  rfl

/-- C9: round-trip idempotence — whenever the strategy pipeline succeeds
with a decoded mapping, serializing that mapping back to JSON text
(`json.dumps`) and re-parsing it, through `JSONParserOptimized().parse` or
`json_str_parser_all_optimized`, returns a structurally equal mapping. -/
theorem c9_roundtrip_reparse (cs : List Char) (m : List (List Char × Json))
    (h : tryStrategies defaultStrategies cs = some (Json.obj m)) :
    initParser.parse (.str (dumpsV (Json.obj m))) = Json.obj m ∧
    jsonStrParserAllOptimized (.str (dumpsV (Json.obj m))) = Json.obj m := by
  obtain ⟨st, hst, hjs⟩ := tryStrategies_mem_of_some h
  have hl := loads_of_jsonStrParser hjs
  have hwf := loads_wf hl
  exact parse_of_loads_obj _ m (rt_loads hwf)

theorem c9_roundtrip_reparse_witness :
    tryStrategies defaultStrategies ['{', '"', 'a', '"', ':', '1', '}'] =
      some (Json.obj [(['a'], Json.num 1 0)]) ∧
    initParser.parse (.str (dumpsV (Json.obj [(['a'], Json.num 1 0)]))) =
      Json.obj [(['a'], Json.num 1 0)] ∧
    jsonStrParserAllOptimized
        (.str (dumpsV (Json.obj [(['a'], Json.num 1 0)]))) =
      Json.obj [(['a'], Json.num 1 0)] :=
  ⟨by rfl,
   (c9_roundtrip_reparse ['{', '"', 'a', '"', ':', '1', '}'] _ (by rfl)).1,
   (c9_roundtrip_reparse ['{', '"', 'a', '"', ':', '1', '}'] _ (by rfl)).2⟩

end JsonRepair
